import Mathlib

/-!
# n-body kernel (`nbody.gcc-7.c`): shallow embedding and verified properties

The C program keeps four global arrays (`bodies`, `dr`, `r2`, `inv_r`) and
mutates them in place.  Here the globals are one explicit `State` record that
every kernel function takes and returns.

* `double` is modelled by an arbitrary linear ordered field `α` (the theorems
  instantiate it with `ℝ`; the definitions run on `ℚ`).
* `index_t` is `uint_fast8_t`, eight bits wide with gcc/glibc: every counter is
  a `Nat` that is reduced modulo `2^8` after each increment.
* `N_BODIES` is a compile-time constant of the source (5); the kernel
  functions take the body count `N` as a parameter so that the properties can
  be stated for every count.
* Loops are run with `fuel` (a bound on the iterations of each loop); a loop
  that does not finish within the fuel reports `Fault.out_of_fuel`.
* A division whose divisor is zero has no real quotient. The program makes no test
  there: it computes an IEEE infinity or NaN and goes on, which a run over the reals
  cannot follow. The embedding ends such a run with `Fault.undefined_div`; the
  properties below are about runs that return, that is, runs without such a division,
  and say nothing about what the program does after one.
* `sqrt` is a parameter of the functions that call it (the theorems take `Real.sqrt`).
* `main` is split into `setup` (the calls before the first `printf`), `step` (the body
  of its loop) and `steps` (the loop); a run yields the two energies handed to
  `printf`. The command line is a list of strings and `atoi` follows the C standard.
-/

namespace NBody

/-! ## Machine-level conventions -/

/-- Reasons for which a run of the embedding yields no state: the fuel of a loop is used
up (`out_of_fuel`), or the program divides by zero (`undefined_div`), where it goes on
with an IEEE infinity or NaN that has no counterpart in the reals. -/
inductive Fault where
  | out_of_fuel
  | undefined_div
  deriving DecidableEq, Repr

/-- Conversion of a non-negative `int` to `index_t` (`uint_fast8_t`, 8 bits). -/
def index_t (n : Nat) : Nat := n % 2 ^ 8

/-- Division of two `double`s over the reals. With a zero divisor there is no real
quotient (the program has no test: it gets an IEEE infinity or NaN and goes on); the
embedding then ends the run with `Fault.undefined_div` instead of inventing a value. -/
def fdiv {α : Type} [LinearOrderedField α] (a b : α) : Except Fault α :=
  if b = 0 then Except.error Fault.undefined_div else Except.ok (a / b)

/-- The loop `for (index_t i = i0; i < bound; i++) step(i)`; the counter wraps
modulo `2^8` when incremented. -/
def for_index {σ : Type} (bound : Nat) (step : Nat → σ → Except Fault σ) :
    Nat → Nat → σ → Except Fault σ
  | 0, _, _ => Except.error Fault.out_of_fuel
  | fuel + 1, i, s =>
    if i < bound then
      match step i s with
      | Except.ok s1 => for_index bound step fuel (index_t (i + 1)) s1
      | Except.error e => Except.error e
    else Except.ok s

/-- The nested loop shared by `calc_distances`, `advance` and `energy`:
`for (index_t i = 0, p = 0; i < N; i++) { outer(i); for (index_t j = i + 1; j < N; j++, p++) inner(i, j, p); }`.
The loop state is the pair counter `p` together with the program state. -/
def pair_loop {σ : Type} (N fuel : Nat) (outer : Nat → σ → σ)
    (inner : Nat → Nat → Nat → σ → Except Fault σ) (s : σ) : Except Fault σ :=
  match for_index N (fun i ps =>
      for_index N (fun j qs =>
          match inner i j qs.1 qs.2 with
          | Except.ok s2 => Except.ok (index_t (qs.1 + 1), s2)
          | Except.error e => Except.error e)
        fuel (index_t (i + 1)) (ps.1, outer i ps.2))
      fuel 0 (0, s) with
  | Except.ok ps => Except.ok ps.2
  | Except.error e => Except.error e

/-! ## Problem definition -/

section Kernel

variable {α : Type} [LinearOrderedField α]

def pi : α := 3.141592653589793

def solar_mass : α := 4 * pi * pi

def days_per_year : α := 365.24

/-- Timestep. -/
def dt : α := 0.01

abbrev vec3_t (α : Type) := Fin 3 → α

structure body (α : Type) where
  x : vec3_t α
  v : vec3_t α
  mass : α

/-- Number of `1 / √r` refinement iterations. -/
def NR_ITS : Nat := 1

/-- The preprocessor constant `N_PAIRS`, for body count `N`. -/
def N_PAIRS (N : Nat) : Nat := N * (N - 1) / 2

/-- The global variables of the program. -/
structure State (α : Type) where
  bodies : Nat → body α
  dr : Nat → vec3_t α
  r2 : Nat → α
  inv_r : Nat → α

/-! ## Vector helpers -/

def vec3_sub (x y : vec3_t α) : vec3_t α := fun i => x i - y i

/-- In-place `result += x`, returning the new `result`. -/
def vec3_iadd (result x : vec3_t α) : vec3_t α := fun i => result i + x i

/-- In-place `result -= x`, returning the new `result`. -/
def vec3_isub (result x : vec3_t α) : vec3_t α := fun i => result i - x i

def vec3_norm2 (x : vec3_t α) : α := x 0 * x 0 + x 1 * x 1 + x 2 * x 2

def vec3_scale (x : vec3_t α) (k : α) : vec3_t α := fun i => k * x i

/-- In-place `result *= k`, returning the new `result`. -/
def vec3_iscale (result : vec3_t α) (k : α) : vec3_t α := fun i => result i * k

/-! ## Main n-body calculations -/

/-- Body of the inner loop of `calc_distances` for the pair `(i, j)` stored at `p`. -/
def calc_distances_pair (i j p : Nat) (s : State α) : State α :=
  let d := vec3_sub (s.bodies i).x (s.bodies j).x
  let s1 : State α := { s with dr := Function.update s.dr p d }
  { s1 with r2 := Function.update s1.r2 p (vec3_norm2 (s1.dr p)) }

/-- Calculate distances between bodies. -/
def calc_distances (N fuel : Nat) (s : State α) : Except Fault (State α) :=
  pair_loop N fuel (fun _ s => s)
    (fun i j p s => Except.ok (calc_distances_pair i j p s)) s

/-- Body of the loop of `calc_inv_r`: `inv_r[p] = 1.0 / sqrt(r2[p])`. -/
def calc_inv_r_pair (sqrt : α → α) (p : Nat) (s : State α) : Except Fault (State α) :=
  match fdiv 1 (sqrt (s.r2 p)) with
  | Except.ok q => Except.ok { s with inv_r := Function.update s.inv_r p q }
  | Except.error e => Except.error e

/-- Calculate `1 / r` between bodies using a full `sqrt` (passed as `sqrt`, a
function of the C library). -/
def calc_inv_r (sqrt : α → α) (N fuel : Nat) (s : State α) : Except Fault (State α) :=
  for_index (N_PAIRS N) (calc_inv_r_pair sqrt) fuel 0 s

/-- One polishing step (Halley) applied to `inv_r[p]`. -/
def halley_step (p : Nat) (s : State α) : State α :=
  let y := s.r2 p * s.inv_r p * s.inv_r p
  let z := s.inv_r p * (0.125 * (15 + y * (3 * y - 10)))
  { s with inv_r := Function.update s.inv_r p z }

/-- Update `1 / r` between bodies using the previous value and `NR_ITS`
polishing steps per pair. -/
def update_inv_r (N fuel : Nat) (s : State α) : Except Fault (State α) :=
  for_index (N_PAIRS N) (fun p s =>
      for_index NR_ITS (fun _ s => Except.ok (halley_step p s)) fuel 0 s)
    fuel 0 s

/-- Body of the inner loop of the velocity pass of `advance`. -/
def advance_pair (i j p : Nat) (s : State α) : Except Fault (State α) :=
  match fdiv (dt * s.inv_r p) (s.r2 p) with
  | Except.error e => Except.error e
  | Except.ok mag =>
    let dv_a := vec3_scale (s.dr p) ((s.bodies j).mass * mag)
    let dv_b := vec3_scale (s.dr p) ((s.bodies i).mass * mag)
    let a : body α := { s.bodies i with v := vec3_isub (s.bodies i).v dv_a }
    let bs1 := Function.update s.bodies i a
    let b : body α := { bs1 j with v := vec3_iadd (bs1 j).v dv_b }
    let bs2 := Function.update bs1 j b
    Except.ok { s with bodies := bs2 }

/-- Body of the position loop of `advance`. -/
def advance_position (i : Nat) (s : State α) : State α :=
  let del_x := vec3_scale (s.bodies i).v dt
  let a : body α := { s.bodies i with x := vec3_iadd (s.bodies i).x del_x }
  { s with bodies := Function.update s.bodies i a }

/-- Advance bodies by `dt`. -/
def advance (N fuel : Nat) (s : State α) : Except Fault (State α) :=
  match pair_loop N fuel (fun _ s => s) advance_pair s with
  | Except.error e => Except.error e
  | Except.ok s1 =>
    for_index N (fun i s => Except.ok (advance_position i s)) fuel 0 s1

/-- Adjust the Sun's momentum to offset the remainder of the system. -/
def offset_momentum (N fuel : Nat) (s : State α) : Except Fault (State α) :=
  match for_index N (fun i p =>
      Except.ok (vec3_iadd p (vec3_scale (s.bodies i).v (s.bodies i).mass)))
    fuel 0 (fun _ => 0) with
  | Except.error e => Except.error e
  | Except.ok p =>
    let p1 := vec3_iscale p (1 / solar_mass)
    let sun : body α := { s.bodies 0 with v := vec3_isub (s.bodies 0).v p1 }
    Except.ok { s with bodies := Function.update s.bodies 0 sun }

/-- Calculate total energy. -/
def energy (N fuel : Nat) (s : State α) : Except Fault α :=
  pair_loop N fuel
    (fun i e => e + 0.5 * (s.bodies i).mass * vec3_norm2 (s.bodies i).v)
    (fun i j p e => Except.ok (e - ((s.bodies i).mass * (s.bodies j).mass) * s.inv_r p)) 0

/-- The initial table `bodies` of the source: Sun, Jupiter, Saturn, Uranus, Neptune.
Indices from 5 on lie outside the array; they hold a body of mass 0 at the origin. -/
def bodies : Nat → body α
  | 0 => { x := fun _ => 0, v := fun _ => 0, mass := solar_mass }
  | 1 =>
    { x := ![4.84143144246472090e+00, -1.16032004402742839e+00, -1.03622044471123109e-01]
      v := ![1.66007664274403694e-03 * days_per_year, 7.69901118419740425e-03 * days_per_year,
        -6.90460016972063023e-05 * days_per_year]
      mass := 9.54791938424326609e-04 * solar_mass }
  | 2 =>
    { x := ![8.34336671824457987e+00, 4.12479856412430479e+00, -4.03523417114321381e-01]
      v := ![-2.76742510726862411e-03 * days_per_year, 4.99852801234917238e-03 * days_per_year,
        2.30417297573763929e-05 * days_per_year]
      mass := 2.85885980666130812e-04 * solar_mass }
  | 3 =>
    { x := ![1.28943695621391310e+01, -1.51111514016986312e+01, -2.23307578892655734e-01]
      v := ![2.96460137564761618e-03 * days_per_year, 2.37847173959480950e-03 * days_per_year,
        -2.96589568540237556e-05 * days_per_year]
      mass := 4.36624404335156298e-05 * solar_mass }
  | 4 =>
    { x := ![1.53796971148509165e+01, -2.59193146099879641e+01, 1.79258772950371181e-01]
      v := ![2.68067772490389322e-03 * days_per_year, 1.62824170038242295e-03 * days_per_year,
        -9.51592254519715870e-05 * days_per_year]
      mass := 5.15138902046611451e-05 * solar_mass }
  | _ => { x := fun _ => 0, v := fun _ => 0, mass := 0 }

/-- The calls of `main` before the first `printf`: `calc_distances(); calc_inv_r();
offset_momentum();`. -/
def setup (sqrt : α → α) (N fuel : Nat) (s : State α) : Except Fault (State α) :=
  match calc_distances N fuel s with
  | Except.error e => Except.error e
  | Except.ok s1 =>
    match calc_inv_r sqrt N fuel s1 with
    | Except.error e => Except.error e
    | Except.ok s2 => offset_momentum N fuel s2

/-- Body of the loop of `main`: `advance(); calc_distances(); update_inv_r();`. -/
def step (N fuel : Nat) (s : State α) : Except Fault (State α) :=
  match advance N fuel s with
  | Except.error e => Except.error e
  | Except.ok s1 =>
    match calc_distances N fuel s1 with
    | Except.error e => Except.error e
    | Except.ok s2 => update_inv_r N fuel s2

/-- The loop `for (size_t i = 0; i < n; i++) step` of `main`, by recursion on the number
of iterations `n` (the counter is a `size_t` that stays below `n`, so it cannot wrap):
`steps N fuel n s` is the state after `n` iterations from `s`. -/
def steps (N fuel : Nat) : Nat → State α → Except Fault (State α)
  | 0, s => Except.ok s
  | n + 1, s =>
    match step N fuel s with
    | Except.error e => Except.error e
    | Except.ok s1 => steps N fuel n s1

/-- The function `main` for a given step count `n` and given initial globals: the pair of
the two energies handed to `printf`, in the order of the two calls. -/
def main_run (sqrt : α → α) (N fuel n : Nat) (s : State α) : Except Fault (α × α) :=
  match setup sqrt N fuel s with
  | Except.error e => Except.error e
  | Except.ok s0 =>
    match energy N fuel s0 with
    | Except.error e => Except.error e
    | Except.ok e1 =>
      match steps N fuel n s0 with
      | Except.error e => Except.error e
      | Except.ok sn =>
        match energy N fuel sn with
        | Except.error e => Except.error e
        | Except.ok e2 => Except.ok (e1, e2)

end Kernel

/-- The sequence of `(i, j, p)` seen by the body of the inner loop of the nested pair
loop, in the order of the visits. -/
def pair_trace (N fuel : Nat) : Except Fault (List (Nat × Nat × Nat)) :=
  pair_loop N fuel (fun _ t => t) (fun i j p t => Except.ok (t ++ [(i, j, p)])) []

/-! ## Reference forms of the loops (used to state and prove the properties) -/

/-- Run `step` over an explicit list of counter values, stopping at the first fault. -/
def seq_run {σ : Type} (step : Nat → σ → Except Fault σ) : List Nat → σ → Except Fault σ
  | [], s => Except.ok s
  | k :: l, s =>
    match step k s with
    | Except.ok s1 => seq_run step l s1
    | Except.error e => Except.error e

/-- The closed form of the pair counter: index of the pair `(i, j)`, `i < j < N`, in
row-major upper-triangle order. -/
def pair_index (N i j : Nat) : Nat := i * N - i * (i + 1) / 2 + (j - i - 1)

/-- Value of the pair counter when row `i` starts. -/
def row_start (N i : Nat) : Nat := i * N - i * (i + 1) / 2

/-- The nested pair loop over explicit index lists; the pair `(i, j)` is handed the
index `idx i j`. -/
def pair_run {σ : Type} (idx : Nat → Nat → Nat) (N : Nat) (outer : Nat → σ → σ)
    (inner : Nat → Nat → Nat → σ → Except Fault σ) (s : σ) : Except Fault σ :=
  seq_run (fun i t =>
      seq_run (fun j u => inner i j (idx i j) u)
        (List.range' (i + 1) (N - (i + 1))) (outer i t))
    (List.range' 0 N) s

/-- All pairs `(i, j)`, `i < j < N`, in row-major order, each with its closed-form index. -/
def pair_list (N : Nat) : List (Nat × Nat × Nat) :=
  (List.range N).flatMap (fun i =>
    (List.range' (i + 1) (N - (i + 1))).map (fun j => (i, j, pair_index N i j)))

/-- Velocity change that the cache entry `p` gives to a body attracted by a mass `m`:
`(m * mag) * dr[p]` with `mag = dt * inv_r[p] / r2[p]`, in component `c`. -/
def pair_kick {α : Type} [LinearOrderedField α] (s : State α) (p : Nat) (m : α)
    (c : Fin 3) : α :=
  (m * (dt * s.inv_r p / s.r2 p)) * s.dr p c

/-- The sequence of values seen by the body of the loop
`for (index_t p = 0; p < bound; p++)`, in the order of the visits. -/
def index_trace (bound fuel : Nat) : Except Fault (List Nat) :=
  for_index bound (fun k t => Except.ok (t ++ [k])) fuel 0 []

/-- The geometry caches describe the current positions: for every pair `i < j < N` the
entry `pair_index N i j` of `dr` is `x_i - x_j` and that of `r2` its squared norm. -/
def geometry_current {α : Type} [LinearOrderedField α] (N : Nat) (s : State α) : Prop :=
  ∀ i j, i < j → j < N →
    (∀ c, s.dr (pair_index N i j) c = (s.bodies i).x c - (s.bodies j).x c)
    ∧ s.r2 (pair_index N i j)
        = ((s.bodies i).x 0 - (s.bodies j).x 0) ^ 2 + ((s.bodies i).x 1 - (s.bodies j).x 1) ^ 2
          + ((s.bodies i).x 2 - (s.bodies j).x 2) ^ 2

/-- The Halley iterate as the claim words it, for `f(z) = 1/z^2 - r2` with
`f'(z) = -2/z^3` and `f''(z) = 6/z^4`: `z - 2 f f' / (2 f'^2 - f f'')`. -/
def halley_iterate {α : Type} [LinearOrderedField α] (z r2 : α) : α :=
  z - 2 * (1 / z ^ 2 - r2) * (-2 / z ^ 3)
    / (2 * (-2 / z ^ 3) ^ 2 - (1 / z ^ 2 - r2) * (6 / z ^ 4))

/-- A cache with `inv_r[p] = 1` and `r2[p] = 2` for every `p`. -/
def halley_test_state {α : Type} [LinearOrderedField α] : State α where
  bodies := fun _ => { x := fun _ => 0, v := fun _ => 0, mass := 1 }
  dr := fun _ _ => 1
  r2 := fun _ => 2
  inv_r := fun _ => 1

/-- Bodies of mass 1 at rest on a line, body `k` at `(k, 0, 0)`, with zeroed caches. -/
def line_state {α : Type} [LinearOrderedField α] : State α where
  bodies := fun k => { x := fun c => if c = 0 then (k : α) else 0, v := fun _ => 0, mass := 1 }
  dr := fun _ _ => 0
  r2 := fun _ => 0
  inv_r := fun _ => 0

/-- A state in which every body has mass 1 and velocity `(1, 1, 1)`, at the origin, and
every cache entry is 1. -/
def unit_state {α : Type} [LinearOrderedField α] : State α where
  bodies := fun _ => { x := fun _ => 0, v := fun _ => 1, mass := 1 }
  dr := fun _ _ => 1
  r2 := fun _ => 1
  inv_r := fun _ => 1

/-- Like `unit_state`, with the mass of every body equal to `solar_mass`. -/
def solar_state {α : Type} [LinearOrderedField α] : State α where
  bodies := fun _ => { x := fun _ => 0, v := fun _ => 1, mass := solar_mass }
  dr := fun _ _ => 1
  r2 := fun _ => 1
  inv_r := fun _ => 1

/-- A cache whose inverse distances are stale: every `inv_r[p]` is `1 = 1/r` for the
previous distance `r = 1`, every `r2[p]` is `(1 + 1/2)^2` for the new distance. -/
def stale_state {α : Type} [LinearOrderedField α] : State α where
  bodies := fun _ => { x := fun _ => 0, v := fun _ => 1, mass := 1 }
  dr := fun _ _ => 1
  r2 := fun _ => (1 + 1 / 2) ^ 2
  inv_r := fun _ => 1

/-- Two bodies at rest, body 0 of mass 1 and body 1 of mass 2, with every cache entry 1. -/
def two_body_state {α : Type} [LinearOrderedField α] : State α where
  bodies := fun k => { x := fun _ => 0, v := fun _ => 0, mass := if k = 0 then 1 else 2 }
  dr := fun _ _ => 1
  r2 := fun _ => 1
  inv_r := fun _ => 1

/-! ## Loop lemmas -/

theorem index_t_of_lt {n : Nat} (h : n < 256) : index_t n = n :=
  Nat.mod_eq_of_lt (by simpa using h)

theorem index_t_succ (n : Nat) : index_t (index_t n + 1) = index_t (n + 1) := by
  unfold index_t
  omega

/-- A counting loop whose bound fits the counter runs over `i, i+1, ..., bound-1`. -/
theorem for_index_eq_seq_run {σ : Type} (bound : Nat) (hb : bound ≤ 255)
    (step : Nat → σ → Except Fault σ) :
    ∀ (fuel i : Nat) (s : σ), i ≤ bound → bound - i < fuel →
      for_index bound step fuel i s = seq_run step (List.range' i (bound - i)) s := by
  intro fuel
  induction fuel with
  | zero => intro i s _ h; omega
  | succ fuel ih =>
    intro i s hi hf
    rcases Nat.lt_or_ge i bound with hlt | hge
    · have hlen : bound - i = (bound - (i + 1)) + 1 := by omega
      rw [hlen, List.range'_succ]
      simp only [for_index, hlt, if_true, seq_run]
      cases hs : step i s with
      | error e => rfl
      | ok s1 =>
        simp only []
        rw [index_t_of_lt (by omega)]
        exact ih (i + 1) s1 (by omega) (by omega)
    · have : bound - i = 0 := by omega
      rw [this]
      simp [for_index, seq_run, Nat.not_lt.mpr hge]

theorem seq_run_congr {σ : Type} (f g : Nat → σ → Except Fault σ) :
    ∀ (l : List Nat) (s : σ), (∀ k ∈ l, ∀ t, f k t = g k t) →
      seq_run f l s = seq_run g l s := by
  intro l
  induction l with
  | nil => intro s _; rfl
  | cons k l ih =>
    intro s h
    simp only [seq_run]
    rw [h k (List.mem_cons_self k l) s]
    cases g k s with
    | error e => rfl
    | ok s1 => exact ih s1 (fun k1 hk1 t => h k1 (List.mem_cons_of_mem k hk1) t)

/-- The inner loop threads the pair counter: started at `index_t P`, the visit of
`j` sees the counter `index_t (P + (j - j0))`, and the counter ends at
`index_t (P + n)`. -/
theorem seq_run_counter {σ : Type} (inner : Nat → Nat → σ → Except Fault σ) :
    ∀ (n j0 P : Nat) (s : σ),
      seq_run (fun j (qs : Nat × σ) =>
          match inner j qs.1 qs.2 with
          | Except.ok s2 => Except.ok (index_t (qs.1 + 1), s2)
          | Except.error e => Except.error e)
        (List.range' j0 n) (index_t P, s)
      = match seq_run (fun j t => inner j (index_t (P + (j - j0))) t)
            (List.range' j0 n) s with
        | Except.ok s2 => Except.ok (index_t (P + n), s2)
        | Except.error e => Except.error e := by
  intro n
  induction n with
  | zero => intro j0 P s; simp [seq_run]
  | succ n ih =>
    intro j0 P s
    rw [List.range'_succ]
    simp only [seq_run, Nat.sub_self, Nat.add_zero]
    cases inner j0 (index_t P) s with
    | error e => rfl
    | ok s1 =>
      simp only []
      rw [index_t_succ, ih (j0 + 1) (P + 1) s1]
      have hc : seq_run (fun j t => inner j (index_t (P + 1 + (j - (j0 + 1)))) t)
            (List.range' (j0 + 1) n) s1
          = seq_run (fun j t => inner j (index_t (P + (j - j0))) t)
            (List.range' (j0 + 1) n) s1 := by
        apply seq_run_congr
        intro k hk t
        have hk1 : j0 + 1 ≤ k := (List.mem_range'_1.mp hk).1
        have : P + 1 + (k - (j0 + 1)) = P + (k - j0) := by omega
        simp only [this]
      rw [hc]
      have : P + 1 + n = P + (n + 1) := by omega
      rw [this]

theorem triangle_succ (i : Nat) : (i + 1) * (i + 1 + 1) / 2 = i * (i + 1) / 2 + (i + 1) := by
  have h : (i + 1) * (i + 1 + 1) = i * (i + 1) + 2 * (i + 1) := by ring
  rw [h, Nat.add_mul_div_left _ _ (by norm_num : 0 < 2)]

theorem triangle_le (N i : Nat) (h : i ≤ N) : i * (i + 1) / 2 ≤ i * N := by
  apply Nat.div_le_of_le_mul
  have : i + 1 ≤ 2 * N ∨ i = 0 := by omega
  rcases this with h1 | h1
  · calc i * (i + 1) ≤ i * (2 * N) := Nat.mul_le_mul_left i h1
      _ = 2 * (i * N) := by ring
  · subst h1; simp

theorem row_start_succ (N i : Nat) (h : i < N) :
    row_start N (i + 1) = row_start N i + (N - (i + 1)) := by
  unfold row_start
  have h1 := triangle_succ i
  have h2 := triangle_le N i (Nat.le_of_lt h)
  have h3 : (i + 1) * N = i * N + N := by ring
  rw [h1, h3]
  omega

theorem pair_index_eq (N i j : Nat) : pair_index N i j = row_start N i + (j - (i + 1)) := by
  unfold pair_index row_start
  omega

/-- The rows of the nested loop thread the pair counter: row `i` starts with the
counter `index_t (row_start N i)`. -/
theorem seq_run_rows {σ : Type} (N : Nat) (outer : Nat → σ → σ)
    (inner : Nat → Nat → Nat → σ → Except Fault σ) :
    ∀ (n i0 : Nat) (s : σ), i0 + n ≤ N →
      seq_run (fun i (ps : Nat × σ) =>
          seq_run (fun j (qs : Nat × σ) =>
              match inner i j qs.1 qs.2 with
              | Except.ok s2 => Except.ok (index_t (qs.1 + 1), s2)
              | Except.error e => Except.error e)
            (List.range' (i + 1) (N - (i + 1))) (ps.1, outer i ps.2))
        (List.range' i0 n) (index_t (row_start N i0), s)
      = match seq_run (fun i t =>
            seq_run (fun j u => inner i j (index_t (pair_index N i j)) u)
              (List.range' (i + 1) (N - (i + 1))) (outer i t))
          (List.range' i0 n) s with
        | Except.ok s2 => Except.ok (index_t (row_start N (i0 + n)), s2)
        | Except.error e => Except.error e := by
  intro n
  induction n with
  | zero => intro i0 s _; simp [seq_run]
  | succ n ih =>
    intro i0 s h
    rw [List.range'_succ]
    simp only [seq_run]
    rw [seq_run_counter (inner i0) (N - (i0 + 1)) (i0 + 1) (row_start N i0) (outer i0 s)]
    have hc : seq_run (fun j t => inner i0 j (index_t (row_start N i0 + (j - (i0 + 1)))) t)
          (List.range' (i0 + 1) (N - (i0 + 1))) (outer i0 s)
        = seq_run (fun j u => inner i0 j (index_t (pair_index N i0 j)) u)
          (List.range' (i0 + 1) (N - (i0 + 1))) (outer i0 s) := by
      apply seq_run_congr
      intro k _ t
      rw [pair_index_eq]
    rw [hc]
    cases seq_run (fun j u => inner i0 j (index_t (pair_index N i0 j)) u)
        (List.range' (i0 + 1) (N - (i0 + 1))) (outer i0 s) with
    | error e => rfl
    | ok s1 =>
      simp only []
      rw [← row_start_succ N i0 (by omega), ih (i0 + 1) s1 (by omega)]
      have : i0 + 1 + n = i0 + (n + 1) := by omega
      rw [this]

/-- With at most 255 bodies and enough fuel the nested loop of the source visits the
pairs in row-major order; the pair counter is the closed form reduced modulo `2^8`. -/
theorem pair_loop_eq_pair_run {σ : Type} (N fuel : Nat) (hN : N ≤ 255) (hf : N < fuel)
    (outer : Nat → σ → σ) (inner : Nat → Nat → Nat → σ → Except Fault σ) (s : σ) :
    pair_loop N fuel outer inner s
      = pair_run (fun i j => index_t (pair_index N i j)) N outer inner s := by
  unfold pair_loop pair_run
  rw [for_index_eq_seq_run N hN _ fuel 0 (0, s) (Nat.zero_le N) (by omega)]
  have hstep : seq_run (fun i (ps : Nat × σ) =>
        for_index N (fun j (qs : Nat × σ) =>
            match inner i j qs.1 qs.2 with
            | Except.ok s2 => Except.ok (index_t (qs.1 + 1), s2)
            | Except.error e => Except.error e)
          fuel (index_t (i + 1)) (ps.1, outer i ps.2))
        (List.range' 0 (N - 0)) (0, s)
      = seq_run (fun i (ps : Nat × σ) =>
          seq_run (fun j (qs : Nat × σ) =>
              match inner i j qs.1 qs.2 with
              | Except.ok s2 => Except.ok (index_t (qs.1 + 1), s2)
              | Except.error e => Except.error e)
            (List.range' (i + 1) (N - (i + 1))) (ps.1, outer i ps.2))
        (List.range' 0 (N - 0)) (0, s) := by
    apply seq_run_congr
    intro i hi ps
    have hi1 : i < N := by
      have := (List.mem_range'_1.mp hi).2
      omega
    rw [index_t_of_lt (by omega)]
    exact for_index_eq_seq_run N hN _ fuel (i + 1) _ (by omega) (by omega)
  rw [hstep]
  have h0 : (0 : Nat) = index_t (row_start N 0) := by simp [row_start, index_t]
  have := seq_run_rows N outer inner N 0 s (by omega)
  rw [← h0] at this
  rw [Nat.sub_zero, this]
  cases seq_run (fun i t =>
      seq_run (fun j u => inner i j (index_t (pair_index N i j)) u)
        (List.range' (i + 1) (N - (i + 1))) (outer i t))
    (List.range' 0 N) s with
  | error e => rfl
  | ok s1 => rfl

theorem seq_run_pure {σ : Type} (f : Nat → σ → σ) :
    ∀ (l : List Nat) (s : σ),
      seq_run (fun k t => Except.ok (f k t)) l s = Except.ok (l.foldl (fun t k => f k t) s) := by
  intro l
  induction l with
  | nil => intro s; rfl
  | cons k l ih => intro s; simp only [seq_run, List.foldl_cons]; exact ih (f k s)

/-- A counting loop with a fault-free body is a left fold over `0, ..., bound-1`. -/
theorem for_index_pure {σ : Type} (bound fuel : Nat) (hb : bound ≤ 255) (hf : bound < fuel)
    (f : Nat → σ → σ) (s : σ) :
    for_index bound (fun k t => Except.ok (f k t)) fuel 0 s
      = Except.ok ((List.range bound).foldl (fun t k => f k t) s) := by
  rw [for_index_eq_seq_run bound hb _ fuel 0 s (Nat.zero_le _) (by omega), seq_run_pure,
    Nat.sub_zero, List.range_eq_range']

theorem row_start_mono (N : Nat) : ∀ (n a : Nat), a + n ≤ N → row_start N a ≤ row_start N (a + n) := by
  intro n
  induction n with
  | zero => intro a _; exact Nat.le_refl _
  | succ n ih =>
    intro a h
    have h1 := ih a (by omega)
    have h2 := row_start_succ N (a + n) (by omega)
    have : a + (n + 1) = a + n + 1 := by omega
    rw [this, h2]
    omega

theorem row_start_self (N : Nat) : row_start N N = N_PAIRS N := by
  unfold row_start N_PAIRS
  cases N with
  | zero => simp
  | succ m =>
    have h1 := triangle_succ m
    have h2 := Nat.two_mul_div_two_of_even (Nat.even_mul_succ_self m)
    have h3 : (m + 1) * (m + 1) = m * (m + 1) + (m + 1) := by ring
    have h4 : (m + 1) * (m + 1 - 1) = m * (m + 1) := by
      rw [Nat.add_sub_cancel]; ring
    rw [h1, h3, h4]
    omega

/-- The closed-form index of a pair `i < j < N` lies below `N_PAIRS N`. -/
theorem pair_index_lt (N i j : Nat) (hij : i < j) (hj : j < N) :
    pair_index N i j < N_PAIRS N := by
  rw [pair_index_eq, ← row_start_self]
  have h1 := row_start_succ N i (by omega)
  have h2 := row_start_mono N (N - (i + 1)) (i + 1) (by omega)
  have h3 : i + 1 + (N - (i + 1)) = N := by omega
  rw [h3] at h2
  omega

/-- Two pairs with the same closed-form index are the same pair. -/
theorem pair_index_inj (N i j i1 j1 : Nat) (hij : i < j) (hj : j < N) (hij1 : i1 < j1)
    (hj1 : j1 < N) (h : pair_index N i j = pair_index N i1 j1) : i = i1 ∧ j = j1 := by
  rw [pair_index_eq, pair_index_eq] at h
  have key : ∀ a b c d : Nat, a < b → b < N → c < d → d < N → a < c →
      row_start N a + (b - (a + 1)) < row_start N c + (d - (c + 1)) := by
    intro a b c d hab hb _ _ hac
    have h1 := row_start_succ N a (by omega)
    have h2 := row_start_mono N (c - (a + 1)) (a + 1) (by omega)
    have h3 : a + 1 + (c - (a + 1)) = c := by omega
    rw [h3] at h2
    omega
  rcases Nat.lt_trichotomy i i1 with hlt | heq | hgt
  · have := key i j i1 j1 hij hj hij1 hj1 hlt
    omega
  · subst heq
    exact ⟨rfl, by omega⟩
  · have := key i1 j1 i j hij1 hj1 hij hj hgt
    omega

theorem N_PAIRS_le_of_le (N : Nat) (hN : N ≤ 23) : N_PAIRS N ≤ 253 := by
  unfold N_PAIRS
  interval_cases N <;> norm_num

/-- With at most 23 bodies the pair counter never wraps: the nested loop hands the pair
`(i, j)` its closed-form index. -/
theorem pair_loop_eq_pair_index {σ : Type} (N fuel : Nat) (hN : N ≤ 23) (hf : N < fuel)
    (outer : Nat → σ → σ) (inner : Nat → Nat → Nat → σ → Except Fault σ) (s : σ) :
    pair_loop N fuel outer inner s = pair_run (pair_index N) N outer inner s := by
  rw [pair_loop_eq_pair_run N fuel (by omega) hf]
  unfold pair_run
  apply seq_run_congr
  intro i hi t
  apply seq_run_congr
  intro j hj u
  have hi1 := List.mem_range'_1.mp hj
  have hlt := pair_index_lt N i j (by omega) (by omega)
  have := N_PAIRS_le_of_le N hN
  show inner i j (index_t (pair_index N i j)) u = inner i j (pair_index N i j) u
  rw [index_t_of_lt (by omega)]

/-! ## Invariant rules for the loops -/

/-- Invariant rule for a run over `a, a+1, ..., a+m-1`: if every step keeps the
(position-indexed) invariant and has a value, the run has a value that satisfies the
invariant at the final position. -/
theorem seq_run_range_inv {σ : Type} (step : Nat → σ → Except Fault σ)
    (I : Nat → σ → Prop) :
    ∀ (m a : Nat) (s : σ),
      (∀ k t, a ≤ k → k < a + m → I k t → ∃ t1, step k t = Except.ok t1 ∧ I (k + 1) t1) →
      I a s → ∃ s1, seq_run step (List.range' a m) s = Except.ok s1 ∧ I (a + m) s1 := by
  intro m
  induction m with
  | zero => intro a s _ h0; exact ⟨s, rfl, h0⟩
  | succ m ih =>
    intro a s h h0
    obtain ⟨t1, ht1, hI1⟩ := h a s (Nat.le_refl a) (by omega) h0
    obtain ⟨s1, hs1, hIs1⟩ := ih (a + 1) t1
      (fun k t hk1 hk2 hI => h k t (by omega) (by omega) hI) hI1
    refine ⟨s1, ?_, ?_⟩
    · rw [List.range'_succ]
      simp only [seq_run, ht1]
      exact hs1
    · have : a + (m + 1) = a + 1 + m := by omega
      rw [this]
      exact hIs1

/-- Invariant rule for a counting loop of the source whose bound fits the counter. -/
theorem for_index_inv {σ : Type} (bound fuel : Nat) (hb : bound ≤ 255) (hf : bound < fuel)
    (step : Nat → σ → Except Fault σ) (I : Nat → σ → Prop) (s : σ)
    (h : ∀ k t, k < bound → I k t → ∃ t1, step k t = Except.ok t1 ∧ I (k + 1) t1)
    (h0 : I 0 s) :
    ∃ s1, for_index bound step fuel 0 s = Except.ok s1 ∧ I bound s1 := by
  rw [for_index_eq_seq_run bound hb step fuel 0 s (Nat.zero_le _) (by omega), Nat.sub_zero]
  have := seq_run_range_inv step I bound 0 s
    (fun k t _ hk hI => h k t (by omega) hI) h0
  rwa [Nat.zero_add] at this

/-- Invariant rule for the nested pair loop: `I i` holds when row `i` starts, `J i j`
before the visit of the pair `(i, j)`. -/
theorem pair_run_inv {σ : Type} (idx : Nat → Nat → Nat) (N : Nat) (outer : Nat → σ → σ)
    (inner : Nat → Nat → Nat → σ → Except Fault σ)
    (I : Nat → σ → Prop) (J : Nat → Nat → σ → Prop)
    (hout : ∀ i t, i < N → I i t → J i (i + 1) (outer i t))
    (hin : ∀ i j t, i < j → j < N → J i j t →
      ∃ t1, inner i j (idx i j) t = Except.ok t1 ∧ J i (j + 1) t1)
    (hrow : ∀ i t, i < N → J i N t → I (i + 1) t)
    (s : σ) (h0 : I 0 s) :
    ∃ s1, pair_run idx N outer inner s = Except.ok s1 ∧ I N s1 := by
  unfold pair_run
  have := seq_run_range_inv (fun i t =>
      seq_run (fun j u => inner i j (idx i j) u)
        (List.range' (i + 1) (N - (i + 1))) (outer i t)) I N 0 s
    (by
      intro i t _ hi hI
      have hi1 : i < N := by omega
      obtain ⟨t1, ht1, hJ⟩ := seq_run_range_inv (fun j u => inner i j (idx i j) u) (J i)
        (N - (i + 1)) (i + 1) (outer i t)
        (fun j u hj1 hj2 hJ => hin i j u (by omega) (by omega) hJ) (hout i t hi1 hI)
      have hN : i + 1 + (N - (i + 1)) = N := by omega
      rw [hN] at hJ
      exact ⟨t1, ht1, hrow i t1 hi1 hJ⟩) h0
  rwa [Nat.zero_add] at this

/-- Invariant rule for the results of a counting loop, for any bound and any fuel: a
property kept by every step that has a value holds for the value of the loop, if any. -/
theorem for_index_partial {σ : Type} (bound : Nat) (step : Nat → σ → Except Fault σ)
    (I : σ → Prop) (h : ∀ k t t1, k < bound → I t → step k t = Except.ok t1 → I t1) :
    ∀ (fuel i : Nat) (s s1 : σ), I s → for_index bound step fuel i s = Except.ok s1 → I s1 := by
  intro fuel
  induction fuel with
  | zero => intro i s s1 _ hrun; simp [for_index] at hrun
  | succ fuel ih =>
    intro i s s1 hI hrun
    by_cases hlt : i < bound
    · simp only [for_index, hlt, if_true] at hrun
      cases hs : step i s with
      | error e => rw [hs] at hrun; cases hrun
      | ok t1 =>
        rw [hs] at hrun
        exact ih (index_t (i + 1)) t1 s1 (h i s t1 hlt hI hs) hrun
    · simp only [for_index, hlt, if_false] at hrun
      cases hrun
      exact hI

/-- Invariant rule for the results of the nested pair loop, for any body count and any
fuel. -/
theorem pair_loop_partial {σ : Type} (N fuel : Nat) (outer : Nat → σ → σ)
    (inner : Nat → Nat → Nat → σ → Except Fault σ) (I : σ → Prop)
    (hout : ∀ i t, I t → I (outer i t))
    (hin : ∀ i j p t t1, I t → inner i j p t = Except.ok t1 → I t1)
    (s s1 : σ) (hs : I s) (hrun : pair_loop N fuel outer inner s = Except.ok s1) : I s1 := by
  unfold pair_loop at hrun
  split at hrun
  · rename_i ps hps
    cases hrun
    refine for_index_partial N _ (fun qs : Nat × σ => I qs.2) ?_ fuel 0 (0, s) ps hs hps
    intro i t t1 _ ht hrow
    refine for_index_partial N _ (fun qs : Nat × σ => I qs.2) ?_ fuel _ _ t1 (hout i t.2 ht) hrow
    intro j u u1 _ hu hstep
    cases hin1 : inner i j u.1 u.2 with
    | error e => simp only [hin1] at hstep; cases hstep
    | ok u2 =>
      simp only [hin1] at hstep
      cases hstep
      exact hin i j u.1 u.2 u2 hu hin1
  · cases hrun

/-- Invariant rule for the results of the nested pair loop, for any body count and any
fuel, with the bounds `i < N`, `j < N` that the loop tests give to the inner body. -/
theorem pair_loop_partial_lt {σ : Type} (N fuel : Nat) (outer : Nat → σ → σ)
    (inner : Nat → Nat → Nat → σ → Except Fault σ) (I : σ → Prop)
    (hout : ∀ i t, i < N → I t → I (outer i t))
    (hin : ∀ i j p t t1, i < N → j < N → I t → inner i j p t = Except.ok t1 → I t1)
    (s s1 : σ) (hs : I s) (hrun : pair_loop N fuel outer inner s = Except.ok s1) : I s1 := by
  unfold pair_loop at hrun
  split at hrun
  · rename_i ps hps
    cases hrun
    refine for_index_partial N _ (fun qs : Nat × σ => I qs.2) ?_ fuel 0 (0, s) ps hs hps
    intro i t t1 hi ht hrow
    refine for_index_partial N _ (fun qs : Nat × σ => I qs.2) ?_ fuel _ _ t1
      (hout i t.2 hi ht) hrow
    intro j u u1 hj hu hstep
    cases hin1 : inner i j u.1 u.2 with
    | error e => simp only [hin1] at hstep; cases hstep
    | ok u2 =>
      simp only [hin1] at hstep
      cases hstep
      exact hin i j u.1 u.2 u2 hi hj hu hin1
  · cases hrun

/-! ## The trace of the pair loop -/

theorem foldl_append_singleton {β : Type} (g : Nat → β) :
    ∀ (l : List Nat) (t : List β), l.foldl (fun u k => u ++ [g k]) t = t ++ l.map g := by
  intro l
  induction l with
  | nil => intro t; simp
  | cons k l ih => intro t; simp [ih]

theorem foldl_append_rows {β : Type} (g : Nat → List β) :
    ∀ (l : List Nat) (t : List β), l.foldl (fun u k => u ++ g k) t = t ++ l.flatMap g := by
  intro l
  induction l with
  | nil => intro t; simp
  | cons k l ih => intro t; simp [ih]

theorem pair_run_trace (idx : Nat → Nat → Nat) (N : Nat) :
    pair_run idx N (fun _ t => t)
        (fun i j p (t : List (Nat × Nat × Nat)) => Except.ok (t ++ [(i, j, p)])) []
      = Except.ok ((List.range N).flatMap (fun i =>
          (List.range' (i + 1) (N - (i + 1))).map (fun j => (i, j, idx i j)))) := by
  unfold pair_run
  have h : ∀ (i : Nat) (t : List (Nat × Nat × Nat)),
      seq_run (fun j u => Except.ok (u ++ [(i, j, idx i j)]))
          (List.range' (i + 1) (N - (i + 1))) t
        = Except.ok (t ++ (List.range' (i + 1) (N - (i + 1))).map (fun j => (i, j, idx i j))) := by
    intro i t
    rw [seq_run_pure (fun j u => u ++ [(i, j, idx i j)]), foldl_append_singleton]
  simp only [h]
  rw [seq_run_pure (fun i t => t ++ (List.range' (i + 1) (N - (i + 1))).map
    (fun j => (i, j, idx i j))), foldl_append_rows, List.nil_append, List.range_eq_range']

theorem pair_trace_eq (N fuel : Nat) (hN : N ≤ 23) (hf : N < fuel) :
    pair_trace N fuel = Except.ok (pair_list N) := by
  unfold pair_trace pair_list
  rw [pair_loop_eq_pair_index N fuel hN hf, pair_run_trace]

theorem mem_pair_list (N i j q : Nat) :
    (i, j, q) ∈ pair_list N ↔ (i < j ∧ j < N ∧ q = pair_index N i j) := by
  unfold pair_list
  simp only [List.mem_flatMap, List.mem_map, List.mem_range, List.mem_range'_1, Prod.mk.injEq]
  constructor
  · rintro ⟨i1, hi1, j1, hj1, rfl, rfl, rfl⟩
    exact ⟨by omega, by omega, rfl⟩
  · rintro ⟨h1, h2, rfl⟩
    exact ⟨i, by omega, j, ⟨by omega, by omega⟩, rfl, rfl, rfl⟩

theorem map_range'_shift : ∀ (m a b : Nat),
    (List.range' a m).map (fun j => b + (j - a)) = List.range' b m := by
  intro m
  induction m with
  | zero => intro a b; rfl
  | succ m ih =>
    intro a b
    rw [List.range'_succ, List.range'_succ, List.map_cons, Nat.sub_self, Nat.add_zero]
    congr 1
    rw [← ih (a + 1) (b + 1)]
    apply List.map_congr_left
    intro j hj
    have := (List.mem_range'_1.mp hj).1
    omega

theorem pair_rows_indices (N : Nat) : ∀ (n a : Nat), a + n ≤ N →
    ((List.range' a n).flatMap (fun i =>
        (List.range' (i + 1) (N - (i + 1))).map (fun j => (i, j, pair_index N i j)))).map
        (fun t => t.2.2)
      = List.range' (row_start N a) (row_start N (a + n) - row_start N a) := by
  intro n
  induction n with
  | zero => intro a _; simp
  | succ n ih =>
    intro a h
    rw [List.range'_succ, List.flatMap_cons, List.map_append, ih (a + 1) (by omega),
      List.map_map]
    have hrow : (List.range' (a + 1) (N - (a + 1))).map
          ((fun t : Nat × Nat × Nat => t.2.2) ∘ fun j => (a, j, pair_index N a j))
        = List.range' (row_start N a) (N - (a + 1)) := by
      rw [← map_range'_shift (N - (a + 1)) (a + 1) (row_start N a)]
      apply List.map_congr_left
      intro j _
      simp only [Function.comp_apply]
      exact pair_index_eq N a j
    rw [hrow]
    have h1 := row_start_succ N a (by omega)
    have h2 := row_start_mono N n (a + 1) (by omega)
    have h3 : a + 1 + n = a + (n + 1) := by omega
    rw [h3] at h2 ⊢
    rw [h1]
    have := List.range'_append (row_start N a) (N - (a + 1))
      (row_start N (a + (n + 1)) - (row_start N a + (N - (a + 1)))) 1
    rw [Nat.one_mul] at this
    rw [this]
    congr 1
    omega

/-- The indices along `pair_list N` are `0, 1, ..., N_PAIRS N - 1`, in this order. -/
theorem pair_list_indices (N : Nat) :
    (pair_list N).map (fun t => t.2.2) = List.range (N_PAIRS N) := by
  unfold pair_list
  rw [List.range_eq_range', pair_rows_indices N N 0 (by omega), List.range_eq_range',
    Nat.zero_add, row_start_self]
  simp [row_start]

/-- Every index below `N_PAIRS N` is the closed-form index of a pair. -/
theorem pair_index_surj (N p : Nat) (hp : p < N_PAIRS N) :
    ∃ i j, i < j ∧ j < N ∧ pair_index N i j = p := by
  have h : p ∈ (pair_list N).map (fun t => t.2.2) := by
    rw [pair_list_indices]; exact List.mem_range.mpr hp
  obtain ⟨⟨i, j, q⟩, hmem, hq⟩ := List.mem_map.mp h
  obtain ⟨h1, h2, h3⟩ := (mem_pair_list N i j q).mp hmem
  exact ⟨i, j, h1, h2, by simpa [h3] using hq⟩

/-! ## Momentum normaliser -/

theorem solar_mass_ne_zero : (solar_mass : ℝ) ≠ 0 := by
  unfold solar_mass pi
  norm_num

theorem momentum_fold (bs : Nat → body ℝ) (c : Fin 3) (n : Nat) :
    ((List.range n).foldl
        (fun (p : vec3_t ℝ) i => vec3_iadd p (vec3_scale (bs i).v (bs i).mass))
        (fun _ => 0)) c
      = ∑ i in Finset.range n, (bs i).mass * (bs i).v c := by
  induction n with
  | zero => simp
  | succ n ih =>
    rw [List.range_succ, List.foldl_append, Finset.sum_range_succ]
    simp only [List.foldl_cons, List.foldl_nil, vec3_iadd, vec3_scale]
    rw [ih]

/-- What `offset_momentum` returns, in closed form. -/
theorem offset_momentum_eq (N fuel : Nat) (hN : N ≤ 255) (hf : N < fuel) (s : State ℝ) :
    offset_momentum N fuel s = Except.ok ⟨Function.update s.bodies 0
      ⟨(s.bodies 0).x, fun c => (s.bodies 0).v c
          - (∑ i in Finset.range N, (s.bodies i).mass * (s.bodies i).v c) * (1 / solar_mass),
        (s.bodies 0).mass⟩, s.dr, s.r2, s.inv_r⟩ := by
  unfold offset_momentum
  rw [for_index_pure N fuel hN hf]
  have hv : vec3_isub (s.bodies 0).v (vec3_iscale ((List.range N).foldl
        (fun (p : vec3_t ℝ) i => vec3_iadd p (vec3_scale (s.bodies i).v (s.bodies i).mass))
        (fun _ => 0)) (1 / solar_mass))
      = fun c => (s.bodies 0).v c
          - (∑ i in Finset.range N, (s.bodies i).mass * (s.bodies i).v c) * (1 / solar_mass) := by
    funext c
    simp only [vec3_isub, vec3_iscale, momentum_fold]
  simp only [hv]

/-! ## Geometry cache -/

/-- What `calc_distances` returns: the entry of every pair holds the displacement and
its squared norm, computed from the bodies. -/
theorem calc_distances_eq (N fuel : Nat) (s : State ℝ) (hN : N ≤ 23) (hf : N < fuel) :
    ∃ s1 : State ℝ, calc_distances N fuel s = Except.ok s1
      ∧ (∀ a b, a < b → b < N →
          s1.dr (pair_index N a b) = vec3_sub (s.bodies a).x (s.bodies b).x
          ∧ s1.r2 (pair_index N a b) = vec3_norm2 (vec3_sub (s.bodies a).x (s.bodies b).x))
      ∧ s1.bodies = s.bodies ∧ s1.inv_r = s.inv_r := by
  unfold calc_distances
  rw [pair_loop_eq_pair_index N fuel hN hf]
  obtain ⟨s1, h1, h2, h3, h4⟩ := pair_run_inv (pair_index N) N (fun _ t => t)
    (fun i j p (t : State ℝ) => Except.ok (calc_distances_pair i j p t))
    (fun i t => (∀ a b, a < b → b < N → a < i →
          t.dr (pair_index N a b) = vec3_sub (s.bodies a).x (s.bodies b).x
          ∧ t.r2 (pair_index N a b) = vec3_norm2 (vec3_sub (s.bodies a).x (s.bodies b).x))
      ∧ t.bodies = s.bodies ∧ t.inv_r = s.inv_r)
    (fun i j t => (∀ a b, a < b → b < N → (a < i ∨ (a = i ∧ b < j)) →
          t.dr (pair_index N a b) = vec3_sub (s.bodies a).x (s.bodies b).x
          ∧ t.r2 (pair_index N a b) = vec3_norm2 (vec3_sub (s.bodies a).x (s.bodies b).x))
      ∧ t.bodies = s.bodies ∧ t.inv_r = s.inv_r)
    (by
      intro i t _ ⟨ht1, ht2, ht3⟩
      refine ⟨fun a b hab hb h => ht1 a b hab hb ?_, ht2, ht3⟩
      omega)
    (by
      intro i j t hij hj ⟨ht1, ht2, ht3⟩
      refine ⟨_, rfl, ?_, ht2, ht3⟩
      intro a b hab hb h
      by_cases hp : pair_index N a b = pair_index N i j
      · obtain ⟨rfl, rfl⟩ := pair_index_inj N a b i j hab hb hij hj hp
        simp [calc_distances_pair, ht2]
      · have hold := ht1 a b hab hb (by
          rcases h with h | ⟨h5, h6⟩
          · exact Or.inl h
          · rcases Nat.lt_or_ge b j with h7 | h7
            · exact Or.inr ⟨h5, h7⟩
            · exfalso
              have : b = j := by omega
              subst this; subst h5
              exact hp rfl)
        simp only [calc_distances_pair, Function.update_noteq hp]
        exact hold)
    (by
      intro i t _ ⟨ht1, ht2, ht3⟩
      refine ⟨fun a b hab hb h => ht1 a b hab hb ?_, ht2, ht3⟩
      omega)
    s (by
      refine ⟨fun a b _ _ h => ?_, rfl, rfl⟩
      omega)
  exact ⟨s1, h1, fun a b hab hb => h2 a b hab hb (by omega), h3, h4⟩

/-! ## Inverse-distance estimator -/

/-- The polishing loop of one pair runs `halley_step` once (`NR_ITS = 1`). -/
theorem polish_loop_eq (fuel p : Nat) (hf : 1 < fuel) (s : State ℝ) :
    for_index NR_ITS (fun _ t => Except.ok (halley_step p t)) fuel 0 s
      = Except.ok (halley_step p s) := by
  rw [for_index_pure NR_ITS fuel (by decide) (by simpa [NR_ITS] using hf)]
  simp [NR_ITS, List.range_succ]

/-- What `update_inv_r` returns. -/
theorem update_inv_r_eq (N fuel : Nat) (s : State ℝ) (hN : N ≤ 23) (hf : N_PAIRS N < fuel) :
    ∃ s1 : State ℝ, update_inv_r N fuel s = Except.ok s1
      ∧ (∀ p, s1.inv_r p = if p < N_PAIRS N then
            s.inv_r p * (0.125 * (15 + s.r2 p * s.inv_r p * s.inv_r p
              * (3 * (s.r2 p * s.inv_r p * s.inv_r p) - 10)))
          else s.inv_r p)
      ∧ s1.dr = s.dr ∧ s1.r2 = s.r2 ∧ s1.bodies = s.bodies := by
  have hb := N_PAIRS_le_of_le N hN
  unfold update_inv_r
  obtain ⟨s1, h1, h2, h3, h4, h5⟩ := for_index_inv (N_PAIRS N) fuel (by omega) hf
    (fun p t => for_index NR_ITS (fun _ u => Except.ok (halley_step p u)) fuel 0 t)
    (fun n t => (∀ p, t.inv_r p = if p < n then
            s.inv_r p * (0.125 * (15 + s.r2 p * s.inv_r p * s.inv_r p
              * (3 * (s.r2 p * s.inv_r p * s.inv_r p) - 10)))
          else s.inv_r p)
      ∧ t.dr = s.dr ∧ t.r2 = s.r2 ∧ t.bodies = s.bodies) s
    (by
      intro k t hk ⟨ht1, ht2, ht3, ht4⟩
      refine ⟨halley_step k t, polish_loop_eq fuel k (by omega) t, ?_, ht2, ht3, ht4⟩
      intro p
      simp only [halley_step]
      by_cases hpk : p = k
      · subst hpk
        have := ht1 p
        simp only [Nat.lt_irrefl, if_false] at this
        simp [this, ht3]
      · rw [Function.update_noteq hpk, ht1 p]
        by_cases hlt : p < k
        · simp [hlt, Nat.lt_succ_of_lt hlt]
        · have : ¬ p < k + 1 := by omega
          simp [hlt, this])
    (by simp)
  exact ⟨s1, h1, h2, h3, h4, h5⟩

/-- What `calc_inv_r` returns when every squared distance is positive. -/
theorem calc_inv_r_eq (N fuel : Nat) (s : State ℝ) (hN : N ≤ 23) (hf : N_PAIRS N < fuel)
    (hpos : ∀ p, p < N_PAIRS N → 0 < s.r2 p) :
    ∃ s1 : State ℝ, calc_inv_r Real.sqrt N fuel s = Except.ok s1
      ∧ (∀ p, s1.inv_r p = if p < N_PAIRS N then 1 / Real.sqrt (s.r2 p) else s.inv_r p)
      ∧ s1.dr = s.dr ∧ s1.r2 = s.r2 ∧ s1.bodies = s.bodies := by
  have hb := N_PAIRS_le_of_le N hN
  unfold calc_inv_r
  exact for_index_inv (N_PAIRS N) fuel (by omega) hf (calc_inv_r_pair Real.sqrt)
    (fun n t => (∀ p, t.inv_r p = if p < n then 1 / Real.sqrt (s.r2 p) else s.inv_r p)
      ∧ t.dr = s.dr ∧ t.r2 = s.r2 ∧ t.bodies = s.bodies) s
    (by
      intro k t hk ⟨ht1, ht2, ht3, ht4⟩
      have hne : Real.sqrt (t.r2 k) ≠ 0 := by
        rw [ht3]
        exact ne_of_gt (Real.sqrt_pos.mpr (hpos k hk))
      refine ⟨⟨t.bodies, t.dr, t.r2, Function.update t.inv_r k (1 / Real.sqrt (t.r2 k))⟩,
        by simp only [calc_inv_r_pair, fdiv, hne, if_false], ?_, ht2, ht3, ht4⟩
      intro p
      show Function.update t.inv_r k (1 / Real.sqrt (t.r2 k)) p = _
      by_cases hpk : p = k
      · subst hpk
        simp [ht3]
      · rw [Function.update_noteq hpk, ht1 p]
        by_cases hlt : p < k
        · simp [hlt, Nat.lt_succ_of_lt hlt]
        · have : ¬ p < k + 1 := by omega
          simp [hlt, this])
    (by simp)

/-- Error of one polishing step: with `inv_r = 1/r` and `r2 = (r + eps)^2` the new value
`u` has `u * (r + eps) - 1 = t^3 * (20 + 15 t + 3 t^2) / 8` for `t = eps / r`. -/
theorem halley_error (r eps : ℝ) (hr : 0 < r) :
    1 / r * (0.125 * (15 + (r + eps) ^ 2 * (1 / r) * (1 / r)
        * (3 * ((r + eps) ^ 2 * (1 / r) * (1 / r)) - 10))) * (r + eps) - 1
      = (eps / r) ^ 3 * (20 + 15 * (eps / r) + 3 * (eps / r) ^ 2) / 8 := by
  have hr0 : r ≠ 0 := ne_of_gt hr
  norm_num
  field_simp
  ring

theorem cubic_error_bound (t : ℝ) (ht : |t| ≤ 1 / 2) :
    |t ^ 3 * (20 + 15 * t + 3 * t ^ 2) / 8| ≤ 2 * t ^ 2 := by
  obtain ⟨h1, h2⟩ := abs_le.mp ht
  have hsq : 0 ≤ t ^ 2 := sq_nonneg t
  have hq1 : t * (20 + 15 * t + 3 * t ^ 2) / 8 ≤ 2 := by nlinarith [sq_nonneg t, sq_nonneg (t + 1 / 2)]
  have hq2 : -2 ≤ t * (20 + 15 * t + 3 * t ^ 2) / 8 := by nlinarith [sq_nonneg t, sq_nonneg (t + 1 / 2)]
  have e : t ^ 3 * (20 + 15 * t + 3 * t ^ 2) / 8
      = t ^ 2 * (t * (20 + 15 * t + 3 * t ^ 2) / 8) := by ring
  rw [e, abs_le]
  constructor
  · nlinarith [mul_nonneg hsq (by linarith : (0 : ℝ) ≤ t * (20 + 15 * t + 3 * t ^ 2) / 8 + 2)]
  · nlinarith [mul_nonneg hsq (by linarith : (0 : ℝ) ≤ 2 - t * (20 + 15 * t + 3 * t ^ 2) / 8)]

/-! ## Integrator -/

/-- One pair update of the velocity pass: it has a value when `r2[p]` is nonzero,
changes only the velocities of the bodies `i` and `j`, by the two kicks. -/
theorem advance_pair_ok (i j p : Nat) (t : State ℝ) (hij : i ≠ j) (hr : t.r2 p ≠ 0) :
    ∃ t1 : State ℝ, advance_pair i j p t = Except.ok t1
      ∧ t1.dr = t.dr ∧ t1.r2 = t.r2 ∧ t1.inv_r = t.inv_r
      ∧ (∀ k, (t1.bodies k).x = (t.bodies k).x ∧ (t1.bodies k).mass = (t.bodies k).mass)
      ∧ (∀ k c, (t1.bodies k).v c = (t.bodies k).v c
          - (if k = i then pair_kick t p (t.bodies j).mass c else 0)
          + (if k = j then pair_kick t p (t.bodies i).mass c else 0)) := by
  have hji : j ≠ i := fun h => hij h.symm
  have h : advance_pair i j p t = Except.ok ⟨Function.update
      (Function.update t.bodies i ⟨(t.bodies i).x,
        vec3_isub (t.bodies i).v
          (vec3_scale (t.dr p) ((t.bodies j).mass * (dt * t.inv_r p / t.r2 p))),
        (t.bodies i).mass⟩)
      j ⟨(t.bodies j).x,
        vec3_iadd (t.bodies j).v
          (vec3_scale (t.dr p) ((t.bodies i).mass * (dt * t.inv_r p / t.r2 p))),
        (t.bodies j).mass⟩, t.dr, t.r2, t.inv_r⟩ := by
    simp only [advance_pair, fdiv, hr, if_false, Function.update_noteq hji]
  refine ⟨_, h, rfl, rfl, rfl, ?_, ?_⟩
  · intro k
    by_cases hkj : k = j
    · subst hkj
      simp [Function.update_noteq hji]
    · by_cases hki : k = i
      · subst hki
        simp [Function.update_noteq hkj]
      · simp [Function.update_noteq hkj, Function.update_noteq hki]
  · intro k c
    by_cases hkj : k = j
    · subst hkj
      simp [Function.update_noteq hji, hji, vec3_iadd, vec3_scale, pair_kick]
    · by_cases hki : k = i
      · subst hki
        simp [Function.update_noteq hkj, hkj, vec3_isub, vec3_scale, pair_kick]
      · simp [Function.update_noteq hkj, Function.update_noteq hki, hkj, hki]

theorem sum_range_ite_lt (f : Nat → ℝ) (k : Nat) :
    ∀ n, ∑ a in Finset.range n, (if a < k then f a else 0)
      = ∑ a in Finset.range (min n k), f a := by
  intro n
  induction n with
  | zero => simp
  | succ n ih =>
    rw [Finset.sum_range_succ, ih]
    by_cases h : n < k
    · have h1 : min n k = n := by omega
      have h2 : min (n + 1) k = n + 1 := by omega
      rw [h1, h2, Finset.sum_range_succ, if_pos h]
    · have h1 : min n k = k := by omega
      have h2 : min (n + 1) k = k := by omega
      rw [h1, h2, if_neg h, add_zero]

/-- The velocity pass, for any assignment `idx` of cache entries to pairs: it has a
value when the entries used have nonzero `r2`; it changes only velocities, and the
velocity of body `k < N` receives one kick from every pair that contains `k`. -/
theorem velocity_pass_eq (idx : Nat → Nat → Nat) (N : Nat) (s : State ℝ)
    (hr : ∀ i j, i < j → j < N → s.r2 (idx i j) ≠ 0) :
    ∃ s1 : State ℝ, pair_run idx N (fun _ t => t) advance_pair s = Except.ok s1
      ∧ s1.dr = s.dr ∧ s1.r2 = s.r2 ∧ s1.inv_r = s.inv_r
      ∧ (∀ k, (s1.bodies k).x = (s.bodies k).x ∧ (s1.bodies k).mass = (s.bodies k).mass)
      ∧ (∀ k c, (s1.bodies k).v c = (s.bodies k).v c
          - (if k < N then
              ∑ b in Finset.Ico (k + 1) N, pair_kick s (idx k b) (s.bodies b).mass c else 0)
          + ∑ a in Finset.range N,
              (if a < k ∧ k < N then pair_kick s (idx a k) (s.bodies a).mass c else 0)) := by
  obtain ⟨s1, h1, ⟨h2, h3, h4, h5⟩, h6⟩ := pair_run_inv idx N (fun _ t => t) advance_pair
    (fun i (t : State ℝ) => (t.dr = s.dr ∧ t.r2 = s.r2 ∧ t.inv_r = s.inv_r
        ∧ (∀ k, (t.bodies k).x = (s.bodies k).x ∧ (t.bodies k).mass = (s.bodies k).mass))
      ∧ (∀ k c, (t.bodies k).v c = (s.bodies k).v c
          - (if k < i then
              ∑ b in Finset.Ico (k + 1) N, pair_kick s (idx k b) (s.bodies b).mass c else 0)
          + ∑ a in Finset.range i,
              (if a < k ∧ k < N then pair_kick s (idx a k) (s.bodies a).mass c else 0)))
    (fun i j (t : State ℝ) => (t.dr = s.dr ∧ t.r2 = s.r2 ∧ t.inv_r = s.inv_r
        ∧ (∀ k, (t.bodies k).x = (s.bodies k).x ∧ (t.bodies k).mass = (s.bodies k).mass))
      ∧ (∀ k c, (t.bodies k).v c = (s.bodies k).v c
          - (if k < i then
              ∑ b in Finset.Ico (k + 1) N, pair_kick s (idx k b) (s.bodies b).mass c else 0)
          + ∑ a in Finset.range i,
              (if a < k ∧ k < N then pair_kick s (idx a k) (s.bodies a).mass c else 0)
          - (if k = i then
              ∑ b in Finset.Ico (i + 1) j, pair_kick s (idx i b) (s.bodies b).mass c else 0)
          + (if i < k ∧ k < j then pair_kick s (idx i k) (s.bodies i).mass c else 0)))
    (by
      intro i t _ ⟨hfr, hv⟩
      refine ⟨hfr, fun k c => ?_⟩
      have hk : ¬ (i < k ∧ k < i + 1) := by omega
      rw [hv k c, Finset.Ico_self, Finset.sum_empty, if_neg hk]
      simp)
    (by
      intro i j t hij hj ⟨⟨hf1, hf2, hf3, hf4⟩, hv⟩
      obtain ⟨t1, ht1, g1, g2, g3, g4, g5⟩ := advance_pair_ok i j (idx i j) t (by omega)
        (by rw [hf2]; exact hr i j hij hj)
      refine ⟨t1, ht1, ⟨g1.trans hf1, g2.trans hf2, g3.trans hf3, fun k =>
        ⟨(g4 k).1.trans (hf4 k).1, (g4 k).2.trans (hf4 k).2⟩⟩, fun k c => ?_⟩
      have hkick : ∀ m, pair_kick t (idx i j) m c = pair_kick s (idx i j) m c := by
        intro m
        simp only [pair_kick, hf1, hf2, hf3]
      rw [g5 k c, hv k c, hkick, hkick, (hf4 i).2, (hf4 j).2]
      by_cases hki : k = i
      · subst hki
        have hkj : k ≠ j := by omega
        have e1 : ¬ (k < k ∧ k < j) := by omega
        have e2 : ¬ (k < k ∧ k < j + 1) := by omega
        rw [Finset.sum_Ico_succ_top (by omega : k + 1 ≤ j)]
        simp only [hkj, e1, e2, if_true, if_false]
        ring
      · by_cases hkj : k = j
        · subst hkj
          have e1 : ¬ (i < k ∧ k < k) := by omega
          have e2 : i < k ∧ k < k + 1 := by omega
          simp only [hki, e1, e2, if_true, if_false, true_and, and_true, and_self, lt_self_iff_false,
            and_false, false_and]
          ring
        · have e : (i < k ∧ k < j + 1) ↔ (i < k ∧ k < j) := by omega
          simp only [hki, hkj, e, if_false]
          ring)
    (by
      intro i t hi ⟨hfr, hv⟩
      refine ⟨hfr, fun k c => ?_⟩
      rw [hv k c, Finset.sum_range_succ]
      by_cases hki : k = i
      · subst hki
        have e1 : ¬ (k < k) := by omega
        have e2 : ¬ (k < k ∧ k < N) := by omega
        have e3 : k < k + 1 := by omega
        simp only [e1, e2, e3, if_true, if_false]
        ring
      · by_cases hlt : k < i
        · have e1 : k < i + 1 := by omega
          have e2 : ¬ (i < k ∧ k < N) := by omega
          simp only [hki, hlt, e1, e2, if_true, if_false]
          ring
        · have e1 : ¬ k < i + 1 := by omega
          simp only [hki, hlt, e1, if_false]
          ring)
    s (by
      refine ⟨⟨rfl, rfl, rfl, fun k => ⟨rfl, rfl⟩⟩, fun k c => ?_⟩
      simp)
  exact ⟨s1, h1, h2, h3, h4, h5, h6⟩

/-- The position pass: every body `k < N` moves by `dt` times its velocity; nothing
else changes. -/
theorem position_pass_eq (N fuel : Nat) (hN : N ≤ 255) (hf : N < fuel) (s : State ℝ) :
    ∃ s1 : State ℝ,
      for_index N (fun i t => Except.ok (advance_position i t)) fuel 0 s = Except.ok s1
      ∧ s1.dr = s.dr ∧ s1.r2 = s.r2 ∧ s1.inv_r = s.inv_r
      ∧ (∀ k, (s1.bodies k).v = (s.bodies k).v ∧ (s1.bodies k).mass = (s.bodies k).mass)
      ∧ (∀ k c, (s1.bodies k).x c
          = if k < N then (s.bodies k).x c + dt * (s.bodies k).v c else (s.bodies k).x c) := by
  exact for_index_inv N fuel hN hf (fun i (t : State ℝ) => Except.ok (advance_position i t))
    (fun n t => t.dr = s.dr ∧ t.r2 = s.r2 ∧ t.inv_r = s.inv_r
      ∧ (∀ k, (t.bodies k).v = (s.bodies k).v ∧ (t.bodies k).mass = (s.bodies k).mass)
      ∧ (∀ k c, (t.bodies k).x c
          = if k < n then (s.bodies k).x c + dt * (s.bodies k).v c else (s.bodies k).x c)) s
    (by
      intro n t _ ⟨h1, h2, h3, h4, h5⟩
      refine ⟨_, rfl, h1, h2, h3, ?_, ?_⟩
      · intro k
        by_cases hk : k = n
        · subst hk
          simpa [advance_position] using h4 k
        · simpa [advance_position, Function.update_noteq hk] using h4 k
      · intro k c
        by_cases hk : k = n
        · subst hk
          have := h5 k c
          simp only [Nat.lt_irrefl, if_false] at this
          simp [advance_position, vec3_iadd, vec3_scale, this, (h4 k).1]
        · have e : k < n + 1 ↔ k < n := by omega
          simp only [advance_position, Function.update_noteq hk, e]
          exact h5 k c)
    (by
      refine ⟨rfl, rfl, rfl, fun k => ⟨rfl, rfl⟩, fun k c => ?_⟩
      simp)

/-- What `advance` returns with at most 255 bodies, in terms of the cache entry
`index_t (pair_index N i j)` that the 8-bit pair counter selects for the pair `(i, j)`. -/
theorem advance_eq (N fuel : Nat) (hN : N ≤ 255) (hf : N < fuel) (s : State ℝ)
    (hr : ∀ i j, i < j → j < N → s.r2 (index_t (pair_index N i j)) ≠ 0) :
    ∃ sv s1 : State ℝ, pair_loop N fuel (fun _ t => t) advance_pair s = Except.ok sv
      ∧ advance N fuel s = Except.ok s1
      ∧ s1.dr = s.dr ∧ s1.r2 = s.r2 ∧ s1.inv_r = s.inv_r
      ∧ (∀ k, (s1.bodies k).mass = (s.bodies k).mass)
      ∧ (∀ k, (s1.bodies k).v = (sv.bodies k).v)
      ∧ (∀ k c, (s1.bodies k).v c = (s.bodies k).v c
          - (if k < N then ∑ b in Finset.Ico (k + 1) N,
              pair_kick s (index_t (pair_index N k b)) (s.bodies b).mass c else 0)
          + ∑ a in Finset.range N, (if a < k ∧ k < N then
              pair_kick s (index_t (pair_index N a k)) (s.bodies a).mass c else 0))
      ∧ (∀ k c, (s1.bodies k).x c
          = if k < N then (s.bodies k).x c + dt * (sv.bodies k).v c else (s.bodies k).x c) := by
  obtain ⟨s1, h1, h2, h3, h4, h5, h6⟩ :=
    velocity_pass_eq (fun i j => index_t (pair_index N i j)) N s hr
  obtain ⟨s2, g1, g2, g3, g4, g5, g6⟩ := position_pass_eq N fuel hN hf s1
  have hv : pair_loop N fuel (fun _ t => t) advance_pair s = Except.ok s1 := by
    rw [pair_loop_eq_pair_run N fuel hN hf, h1]
  refine ⟨s1, s2, hv, ?_, g2.trans h2, g3.trans h3, g4.trans h4,
    fun k => (g5 k).2.trans (h5 k).2, fun k => (g5 k).1, fun k c => ?_, fun k c => ?_⟩
  · unfold advance
    rw [hv]
    exact g1
  · rw [(g5 k).1, h6 k c]
  · rw [g6 k c, (h5 k).1]

/-- The cache entry selected by the 8-bit pair counter lies inside the cache. -/
theorem wrapped_index_lt (N i j : Nat) (hij : i < j) (hj : j < N) :
    index_t (pair_index N i j) < N_PAIRS N := by
  rcases Nat.lt_or_ge N 24 with h | h
  · have h1 := pair_index_lt N i j hij hj
    have h2 := N_PAIRS_le_of_le N (by omega)
    rw [index_t_of_lt (by omega)]
    exact h1
  · have h1 : index_t (pair_index N i j) < 256 := Nat.mod_lt _ (by norm_num)
    have h2 : 24 * 23 / 2 ≤ N * (N - 1) / 2 :=
      Nat.div_le_div_right (Nat.mul_le_mul h (by omega))
    unfold N_PAIRS
    omega

/-- With at most 23 bodies the pair counter does not wrap on any pair. -/
theorem wrapped_index_eq (N i j : Nat) (hN : N ≤ 23) (hij : i < j) (hj : j < N) :
    index_t (pair_index N i j) = pair_index N i j := by
  have h1 := pair_index_lt N i j hij hj
  have h2 := N_PAIRS_le_of_le N hN
  exact index_t_of_lt (by omega)

/-- One call of `advance` on two bodies: the two velocity changes, from the single cache
entry 0. -/
theorem advance_two_bodies (fuel : Nat) (s : State ℝ) (hf : 2 < fuel) (hr : s.r2 0 ≠ 0) :
    ∃ s1 : State ℝ, advance 2 fuel s = Except.ok s1
      ∧ (∀ k, (s1.bodies k).mass = (s.bodies k).mass)
      ∧ (∀ c, (s1.bodies 0).v c - (s.bodies 0).v c = -pair_kick s 0 (s.bodies 1).mass c)
      ∧ (∀ c, (s1.bodies 1).v c - (s.bodies 1).v c = pair_kick s 0 (s.bodies 0).mass c) := by
  have h01 : index_t (pair_index 2 0 1) = 0 := by decide
  obtain ⟨sv, s1, -, h1, -, -, -, h4, -, h6, -⟩ := advance_eq 2 fuel (by norm_num) hf s
    (by
      intro i j hij hj
      have hi : i = 0 := by omega
      have hj1 : j = 1 := by omega
      subst hi; subst hj1
      rw [h01]
      exact hr)
  refine ⟨s1, h1, h4, fun c => ?_, fun c => ?_⟩
  · rw [h6 0 c]
    simp [Finset.sum_range_succ, h01]
  · rw [h6 1 c]
    simp [Finset.sum_range_succ, h01]

theorem sum_range_ite_Ico (f : Nat → ℝ) (a N : Nat) :
    ∑ k in Finset.range N, (if a < k ∧ k < N then f k else 0)
      = ∑ k in Finset.Ico (a + 1) N, f k := by
  rw [← Finset.sum_filter]
  apply Finset.sum_congr _ (fun _ _ => rfl)
  ext k
  simp only [Finset.mem_filter, Finset.mem_range, Finset.mem_Ico]
  omega

/-- The kicks of all pairs cancel in the mass-weighted sum (Newton's third law). -/
theorem kicks_cancel (N : Nat) (m : Nat → ℝ) (w : Nat → Nat → ℝ) :
    ∑ k in Finset.range N, m k * (∑ b in Finset.Ico (k + 1) N, m b * w k b)
      = ∑ k in Finset.range N, m k
          * (∑ a in Finset.range N, if a < k ∧ k < N then m a * w a k else 0) := by
  have h1 : ∀ k ∈ Finset.range N,
      m k * (∑ a in Finset.range N, if a < k ∧ k < N then m a * w a k else 0)
        = ∑ a in Finset.range N, if a < k ∧ k < N then m a * (m k * w a k) else 0 := by
    intro k _
    rw [Finset.mul_sum]
    apply Finset.sum_congr rfl
    intro a _
    by_cases h : a < k ∧ k < N
    · rw [if_pos h, if_pos h]; ring
    · rw [if_neg h, if_neg h, mul_zero]
  rw [Finset.sum_congr rfl h1, Finset.sum_comm]
  apply Finset.sum_congr rfl
  intro a _
  rw [sum_range_ite_Ico (fun k => m a * (m k * w a k)) a N, Finset.mul_sum]

/-- A counting loop whose bound exceeds every value of the 8-bit counter does not
finish, whatever the fuel, as long as its body does not fail. -/
theorem for_index_diverges {σ : Type} (bound : Nat) (hb : 256 ≤ bound)
    (step : Nat → σ → Except Fault σ) (I : σ → Prop)
    (h : ∀ k t, I t → step k t = Except.error Fault.out_of_fuel
      ∨ ∃ t1, step k t = Except.ok t1 ∧ I t1) :
    ∀ (fuel i : Nat) (s : σ), i < 256 → I s →
      for_index bound step fuel i s = Except.error Fault.out_of_fuel := by
  intro fuel
  induction fuel with
  | zero => intro i s _ _; rfl
  | succ fuel ih =>
    intro i s hi hI
    have hlt : i < bound := by omega
    simp only [for_index, hlt, if_true]
    rcases h i s hI with h1 | ⟨t1, h1, h2⟩
    · rw [h1]
    · rw [h1]
      exact ih (index_t (i + 1)) t1 (Nat.mod_lt _ (by norm_num)) h2

/-- A pair update has a value whenever its `r2` entry is nonzero, also when `i = j`. -/
theorem advance_pair_keeps_r2 (i j p : Nat) (t : State ℝ) (hr : t.r2 p ≠ 0) :
    ∃ t1 : State ℝ, advance_pair i j p t = Except.ok t1 ∧ t1.r2 = t.r2 := by
  simp only [advance_pair, fdiv, hr, if_false]
  exact ⟨_, rfl, rfl⟩

/-- With 256 bodies or more the nested pair loop does not finish, whatever the fuel, as
long as the body of its inner loop does not fail. -/
theorem pair_loop_diverges {σ : Type} (N fuel : Nat) (hN : 256 ≤ N) (outer : Nat → σ → σ)
    (inner : Nat → Nat → Nat → σ → Except Fault σ) (I : σ → Prop)
    (hout : ∀ i t, I t → I (outer i t))
    (hin : ∀ i j p t, I t → ∃ t1, inner i j p t = Except.ok t1 ∧ I t1)
    (s : σ) (hs : I s) :
    pair_loop N fuel outer inner s = Except.error Fault.out_of_fuel := by
  unfold pair_loop
  rw [for_index_diverges N hN _ (fun ps : Nat × σ => I ps.2) ?_ fuel 0 (0, s) (by norm_num) hs]
  intro i ps hps
  left
  apply for_index_diverges N hN _ (fun qs : Nat × σ => I qs.2) ?_ fuel _ _
    (Nat.mod_lt _ (by norm_num)) (hout i ps.2 hps)
  intro j qs hqs
  right
  obtain ⟨t1, h1, h2⟩ := hin i j qs.1 qs.2 hqs
  exact ⟨(index_t (qs.1 + 1), t1), by simp only [h1], h2⟩

/-- With 256 bodies or more `advance` does not return, whatever the fuel, when every
`r2` entry is nonzero. -/
theorem advance_diverges (N fuel : Nat) (hN : 256 ≤ N) (s : State ℝ)
    (hr : ∀ p, s.r2 p ≠ 0) : advance N fuel s = Except.error Fault.out_of_fuel := by
  unfold advance
  rw [pair_loop_diverges N fuel hN (fun _ t => t) advance_pair
    (fun t : State ℝ => ∀ p, t.r2 p ≠ 0) (fun _ _ h => h)
    (fun i j p t ht => by
      obtain ⟨t1, h1, h2⟩ := advance_pair_keeps_r2 i j p t (ht p)
      exact ⟨t1, h1, fun q => by rw [h2]; exact ht q⟩) s hr]

/-! ## Energy diagnostic -/

/-- What `energy` returns: kinetic terms minus the potential terms of all pairs. -/
theorem energy_eq (N fuel : Nat) (s : State ℝ) (hN : N ≤ 23) (hf : N < fuel) :
    energy N fuel s = Except.ok
      (∑ i in Finset.range N, 0.5 * (s.bodies i).mass * vec3_norm2 (s.bodies i).v
        - ∑ i in Finset.range N, ∑ j in Finset.Ico (i + 1) N,
            (s.bodies i).mass * (s.bodies j).mass * s.inv_r (pair_index N i j)) := by
  unfold energy
  rw [pair_loop_eq_pair_index N fuel hN hf]
  obtain ⟨e, h1, h2⟩ := pair_run_inv (pair_index N) N
    (fun i (e : ℝ) => e + 0.5 * (s.bodies i).mass * vec3_norm2 (s.bodies i).v)
    (fun i j p (e : ℝ) => Except.ok (e - ((s.bodies i).mass * (s.bodies j).mass) * s.inv_r p))
    (fun i e => e = ∑ a in Finset.range i,
      (0.5 * (s.bodies a).mass * vec3_norm2 (s.bodies a).v
        - ∑ b in Finset.Ico (a + 1) N,
            (s.bodies a).mass * (s.bodies b).mass * s.inv_r (pair_index N a b)))
    (fun i j e => e = ∑ a in Finset.range i,
      (0.5 * (s.bodies a).mass * vec3_norm2 (s.bodies a).v
        - ∑ b in Finset.Ico (a + 1) N,
            (s.bodies a).mass * (s.bodies b).mass * s.inv_r (pair_index N a b))
      + 0.5 * (s.bodies i).mass * vec3_norm2 (s.bodies i).v
      - ∑ b in Finset.Ico (i + 1) j,
          (s.bodies i).mass * (s.bodies b).mass * s.inv_r (pair_index N i b))
    (by
      intro i e _ he
      beta_reduce
      rw [he, Finset.Ico_self, Finset.sum_empty, sub_zero])
    (by
      intro i j e hij _ he
      refine ⟨_, rfl, ?_⟩
      beta_reduce
      rw [he, Finset.sum_Ico_succ_top (by omega : i + 1 ≤ j)]
      ring)
    (by
      intro i e _ he
      rw [he, Finset.sum_range_succ]
      ring)
    0 (by simp)
  rw [h1, h2, Finset.sum_sub_distrib]

/-- A pair update that has a value keeps the masses and changes the velocities by the
two kicks, for any two indices `i`, `j` (equal or not). -/
theorem advance_pair_kicks (i j p : Nat) (t t1 : State ℝ)
    (h : advance_pair i j p t = Except.ok t1) :
    (∀ k, (t1.bodies k).mass = (t.bodies k).mass)
      ∧ (∀ k c, (t1.bodies k).v c = (t.bodies k).v c
          - (if k = i then pair_kick t p (t.bodies j).mass c else 0)
          + (if k = j then pair_kick t p (t.bodies i).mass c else 0)) := by
  by_cases hr : t.r2 p = 0
  · simp [advance_pair, fdiv, hr] at h
  · simp only [advance_pair, fdiv, hr, if_false] at h
    cases h
    constructor
    · intro k
      by_cases hkj : k = j
      · subst hkj
        by_cases hki : k = i
        · subst hki
          simp
        · simp [Function.update_noteq hki]
      · by_cases hki : k = i
        · subst hki
          simp [Function.update_noteq hkj]
        · simp [Function.update_noteq hkj, Function.update_noteq hki]
    · intro k c
      by_cases hkj : k = j
      · subst hkj
        by_cases hki : k = i
        · subst hki
          simp [vec3_iadd, vec3_isub, vec3_scale, pair_kick]
        · simp [Function.update_noteq hki, hki, vec3_iadd, vec3_scale, pair_kick]
      · by_cases hki : k = i
        · subst hki
          simp [Function.update_noteq hkj, hkj, vec3_isub, vec3_scale, pair_kick]
        · simp [Function.update_noteq hkj, Function.update_noteq hki, hkj, hki]

/-- A pair update that has a value keeps the masses and the total momentum of the
bodies `0, ..., N - 1`, for any two indices `i`, `j` below `N`. -/
theorem advance_pair_momentum (N i j p : Nat) (t t1 : State ℝ) (hi : i < N) (hj : j < N)
    (h : advance_pair i j p t = Except.ok t1) :
    (∀ k, (t1.bodies k).mass = (t.bodies k).mass)
      ∧ ∀ c, ∑ k in Finset.range N, (t1.bodies k).mass * (t1.bodies k).v c
          = ∑ k in Finset.range N, (t.bodies k).mass * (t.bodies k).v c := by
  obtain ⟨hm, hv⟩ := advance_pair_kicks i j p t t1 h
  refine ⟨hm, fun c => ?_⟩
  have hpt : ∀ k ∈ Finset.range N, (t1.bodies k).mass * (t1.bodies k).v c
      = (t.bodies k).mass * (t.bodies k).v c
        - (if k = i then (t.bodies k).mass * pair_kick t p (t.bodies j).mass c else 0)
        + (if k = j then (t.bodies k).mass * pair_kick t p (t.bodies i).mass c else 0) := by
    intro k _
    rw [hm k, hv k c]
    split_ifs <;> ring
  rw [Finset.sum_congr rfl hpt, Finset.sum_add_distrib, Finset.sum_sub_distrib,
    Finset.sum_ite_eq' (Finset.range N) i, Finset.sum_ite_eq' (Finset.range N) j,
    if_pos (Finset.mem_range.mpr hi), if_pos (Finset.mem_range.mpr hj)]
  simp only [pair_kick]
  ring

/-- Whatever the body count and the fuel, a call of `advance` that returns keeps every
mass and the total momentum. -/
theorem advance_momentum_partial (N fuel : Nat) (s s1 : State ℝ)
    (h : advance N fuel s = Except.ok s1) :
    (∀ k, (s1.bodies k).mass = (s.bodies k).mass)
      ∧ ∀ c, ∑ k in Finset.range N, (s1.bodies k).mass * (s1.bodies k).v c
          = ∑ k in Finset.range N, (s.bodies k).mass * (s.bodies k).v c := by
  unfold advance at h
  split at h
  · cases h
  · rename_i sv hsv
    have hv := pair_loop_partial_lt N fuel (fun _ t => t) advance_pair
      (fun t : State ℝ => (∀ k, (t.bodies k).mass = (s.bodies k).mass)
        ∧ ∀ c, ∑ k in Finset.range N, (t.bodies k).mass * (t.bodies k).v c
            = ∑ k in Finset.range N, (s.bodies k).mass * (s.bodies k).v c)
      (fun _ _ _ ht => ht)
      (fun i j p t t1 hi hj ht h1 => by
        obtain ⟨g1, g2⟩ := advance_pair_momentum N i j p t t1 hi hj h1
        exact ⟨fun k => (g1 k).trans (ht.1 k), fun c => (g2 c).trans (ht.2 c)⟩)
      s sv ⟨fun _ => rfl, fun _ => rfl⟩ hsv
    refine for_index_partial N _
      (fun t : State ℝ => (∀ k, (t.bodies k).mass = (s.bodies k).mass)
        ∧ ∀ c, ∑ k in Finset.range N, (t.bodies k).mass * (t.bodies k).v c
            = ∑ k in Finset.range N, (s.bodies k).mass * (s.bodies k).v c)
      ?_ fuel 0 sv s1 hv h
    intro i t t1 _ ht h1
    cases h1
    have hsame : ∀ k, ((advance_position i t).bodies k).mass = (t.bodies k).mass
        ∧ ((advance_position i t).bodies k).v = (t.bodies k).v := by
      intro k
      by_cases hk : k = i
      · subst hk
        simp [advance_position]
      · simp [advance_position, Function.update_noteq hk]
    refine ⟨fun k => (hsame k).1.trans (ht.1 k), fun c => ?_⟩
    rw [← ht.2 c]
    apply Finset.sum_congr rfl
    intro k _
    rw [(hsame k).1, (hsame k).2]

/-! ## Driver -/

theorem advance_pair_frame (i j p : Nat) (t t1 : State ℝ)
    (h : advance_pair i j p t = Except.ok t1) :
    t1.dr = t.dr ∧ t1.r2 = t.r2 ∧ t1.inv_r = t.inv_r := by
  by_cases hr : t.r2 p = 0
  · simp [advance_pair, fdiv, hr] at h
  · simp only [advance_pair, fdiv, hr, if_false] at h
    cases h
    exact ⟨rfl, rfl, rfl⟩

/-- Whatever the body count and the fuel, a call of `advance` that returns leaves the
three caches as they were. -/
theorem advance_frame (N fuel : Nat) (s s1 : State ℝ) (h : advance N fuel s = Except.ok s1) :
    s1.dr = s.dr ∧ s1.r2 = s.r2 ∧ s1.inv_r = s.inv_r := by
  unfold advance at h
  split at h
  · cases h
  · rename_i sv hsv
    have hv : sv.dr = s.dr ∧ sv.r2 = s.r2 ∧ sv.inv_r = s.inv_r :=
      pair_loop_partial N fuel (fun _ t => t) advance_pair
        (fun t : State ℝ => t.dr = s.dr ∧ t.r2 = s.r2 ∧ t.inv_r = s.inv_r)
        (fun _ _ ht => ht)
        (fun i j p t t1 ht h1 => by
          obtain ⟨g1, g2, g3⟩ := advance_pair_frame i j p t t1 h1
          exact ⟨g1.trans ht.1, g2.trans ht.2.1, g3.trans ht.2.2⟩)
        s sv ⟨rfl, rfl, rfl⟩ hsv
    exact for_index_partial N _
      (fun t : State ℝ => t.dr = s.dr ∧ t.r2 = s.r2 ∧ t.inv_r = s.inv_r)
      (fun k t t1 _ ht h1 => by
        cases h1
        exact ht) fuel 0 sv s1 hv h

/-- Whatever the body count and the fuel, a call of `calc_inv_r` that returns leaves
`dr`, `r2` and the bodies as they were. -/
theorem calc_inv_r_frame (sqrt : ℝ → ℝ) (N fuel : Nat) (s s1 : State ℝ)
    (h : calc_inv_r sqrt N fuel s = Except.ok s1) :
    s1.dr = s.dr ∧ s1.r2 = s.r2 ∧ s1.bodies = s.bodies := by
  unfold calc_inv_r at h
  refine for_index_partial (N_PAIRS N) (calc_inv_r_pair sqrt)
    (fun t : State ℝ => t.dr = s.dr ∧ t.r2 = s.r2 ∧ t.bodies = s.bodies) ?_ fuel 0 s s1
    ⟨rfl, rfl, rfl⟩ h
  intro k t t1 _ ht h1
  by_cases hr : sqrt (t.r2 k) = 0
  · simp [calc_inv_r_pair, fdiv, hr] at h1
  · simp only [calc_inv_r_pair, fdiv, hr, if_false] at h1
    cases h1
    exact ht

/-- After `calc_distances` the geometry caches describe the positions. -/
theorem calc_distances_current (N fuel : Nat) (s : State ℝ) (hN : N ≤ 23) (hf : N < fuel) :
    ∃ s1 : State ℝ, calc_distances N fuel s = Except.ok s1 ∧ geometry_current N s1
      ∧ s1.bodies = s.bodies ∧ s1.inv_r = s.inv_r := by
  obtain ⟨s1, h1, h2, h3, h4⟩ := calc_distances_eq N fuel s hN hf
  refine ⟨s1, h1, ?_, h3, h4⟩
  intro i j hij hj
  obtain ⟨g1, g2⟩ := h2 i j hij hj
  rw [g1, g2, h3]
  refine ⟨fun c => rfl, ?_⟩
  simp only [vec3_norm2, vec3_sub]
  ring

/-- Changing velocities, masses or `inv_r` keeps the geometry caches current. -/
theorem geometry_current_of_same (N : Nat) (s t : State ℝ) (h : geometry_current N s)
    (hdr : t.dr = s.dr) (hr2 : t.r2 = s.r2) (hx : ∀ k, (t.bodies k).x = (s.bodies k).x) :
    geometry_current N t := by
  intro i j hij hj
  rw [hdr, hr2, hx i, hx j]
  exact h i j hij hj

/-- What `offset_momentum` leaves unchanged: the caches and every position. -/
theorem offset_momentum_frame (N fuel : Nat) (hN : N ≤ 255) (hf : N < fuel) (s : State ℝ) :
    ∃ s1 : State ℝ, offset_momentum N fuel s = Except.ok s1
      ∧ s1.dr = s.dr ∧ s1.r2 = s.r2 ∧ s1.inv_r = s.inv_r
      ∧ ∀ k, (s1.bodies k).x = (s.bodies k).x := by
  refine ⟨_, offset_momentum_eq N fuel hN hf s, rfl, rfl, rfl, ?_⟩
  intro k
  by_cases hk : k = 0
  · subst hk
    simp
  · simp [Function.update_noteq hk]

/-- The state handed to the first `energy()` call has current geometry caches. -/
theorem setup_current (sqrt : ℝ → ℝ) (N fuel : Nat) (hN : N ≤ 23) (hf : N < fuel)
    (s s0 : State ℝ) (h : setup sqrt N fuel s = Except.ok s0) : geometry_current N s0 := by
  obtain ⟨s1, h1, h2, -, -⟩ := calc_distances_current N fuel s hN hf
  unfold setup at h
  rw [h1] at h
  simp only [] at h
  split at h
  · cases h
  · rename_i s2 hs2
    obtain ⟨g1, g2, g3⟩ := calc_inv_r_frame sqrt N fuel s1 s2 hs2
    obtain ⟨s3, k1, k2, k3, -, k5⟩ := offset_momentum_frame N fuel (by omega) hf s2
    rw [k1] at h
    cases h
    exact geometry_current_of_same N s1 s0 h2 (k2.trans g1) (k3.trans g2)
      (fun k => by rw [k5 k, g3])

/-- One iteration of the loop of `main` ends with current geometry caches. -/
theorem step_current (N fuel : Nat) (hN : N ≤ 23) (hf : N_PAIRS N < fuel) (hf1 : N < fuel)
    (s s1 : State ℝ) (h : step N fuel s = Except.ok s1) : geometry_current N s1 := by
  unfold step at h
  split at h
  · cases h
  · rename_i a _
    obtain ⟨b, h1, h2, -, -⟩ := calc_distances_current N fuel a hN hf1
    rw [h1] at h
    simp only [] at h
    obtain ⟨c, k1, -, k3, k4, k5⟩ := update_inv_r_eq N fuel b hN hf
    rw [k1] at h
    cases h
    exact geometry_current_of_same N b s1 h2 k3 k4 (fun k => by rw [k5])

/-- After any number of iterations the geometry caches are current. -/
theorem steps_current (N fuel : Nat) (hN : N ≤ 23) (hf : N_PAIRS N < fuel) (hf1 : N < fuel) :
    ∀ (n : Nat) (s sn : State ℝ), geometry_current N s →
      steps N fuel n s = Except.ok sn → geometry_current N sn := by
  intro n
  induction n with
  | zero =>
    intro s sn hs h
    simp only [steps] at h
    cases h
    exact hs
  | succ n ih =>
    intro s sn _ h
    simp only [steps] at h
    split at h
    · cases h
    · rename_i s1 hs1
      exact ih s1 sn (step_current N fuel hN hf hf1 s s1 hs1) h

/-- With current geometry caches, the squared distance of two bodies at different
positions is positive, that of two bodies at the same position is zero. -/
theorem r2_of_current (N : Nat) (s : State ℝ) (h : geometry_current N s) (i j : Nat)
    (hij : i < j) (hj : j < N) :
    ((s.bodies i).x ≠ (s.bodies j).x → 0 < s.r2 (pair_index N i j))
      ∧ ((s.bodies i).x = (s.bodies j).x → s.r2 (pair_index N i j) = 0) := by
  obtain ⟨-, h2⟩ := h i j hij hj
  rw [h2]
  constructor
  · intro hne
    obtain ⟨c, hc⟩ := Function.ne_iff.mp hne
    have hpos : 0 < ((s.bodies i).x c - (s.bodies j).x c) ^ 2 :=
      lt_of_le_of_ne (sq_nonneg _) (Ne.symm (pow_ne_zero 2 (sub_ne_zero.mpr hc)))
    fin_cases c
    · have := hpos
      simp only [Fin.zero_eta] at this
      nlinarith [sq_nonneg ((s.bodies i).x 1 - (s.bodies j).x 1),
        sq_nonneg ((s.bodies i).x 2 - (s.bodies j).x 2)]
    · have := hpos
      simp only [Fin.mk_one] at this
      nlinarith [sq_nonneg ((s.bodies i).x 0 - (s.bodies j).x 0),
        sq_nonneg ((s.bodies i).x 2 - (s.bodies j).x 2)]
    · have := hpos
      simp only [Fin.reduceFinMk] at this
      nlinarith [sq_nonneg ((s.bodies i).x 0 - (s.bodies j).x 0),
        sq_nonneg ((s.bodies i).x 1 - (s.bodies j).x 1)]
  · intro heq
    rw [heq]
    ring

/-- With pairwise distinct positions the calls before the first `printf` all return; the
caches are then current, with positive `r2` and `inv_r` on every pair. -/
theorem setup_total (N fuel : Nat) (s : State ℝ) (hN : N ≤ 23) (hf : N_PAIRS N < fuel)
    (hf1 : N < fuel) (hd : ∀ i j, i < j → j < N → (s.bodies i).x ≠ (s.bodies j).x) :
    ∃ s0 : State ℝ, setup Real.sqrt N fuel s = Except.ok s0 ∧ geometry_current N s0
      ∧ (∀ p, p < N_PAIRS N → 0 < s0.r2 p) ∧ (∀ p, p < N_PAIRS N → 0 < s0.inv_r p) := by
  obtain ⟨s1, h1, h2, h3, -⟩ := calc_distances_current N fuel s hN hf1
  have hpos : ∀ p, p < N_PAIRS N → 0 < s1.r2 p := by
    intro p hp
    obtain ⟨i, j, hij, hj, rfl⟩ := pair_index_surj N p hp
    exact (r2_of_current N s1 h2 i j hij hj).1 (by rw [h3]; exact hd i j hij hj)
  obtain ⟨s2, g1, g2, g3, g4, g5⟩ := calc_inv_r_eq N fuel s1 hN hf hpos
  obtain ⟨s3, k1, k2, k3, k4, k5⟩ := offset_momentum_frame N fuel (by omega) hf1 s2
  refine ⟨s3, ?_, ?_, ?_, ?_⟩
  · unfold setup
    rw [h1]
    simp only []
    rw [g1]
    exact k1
  · exact geometry_current_of_same N s1 s3 h2 (k2.trans g3) (k3.trans g4)
      (fun k => by rw [k5 k, g5])
  · intro p hp
    rw [k3, g4]
    exact hpos p hp
  · intro p hp
    rw [k4, g2 p, if_pos hp]
    have := Real.sqrt_pos.mpr (hpos p hp)
    positivity

/-- With step count 0 the two energies of a run that returns are equal. -/
theorem main_run_zero_eq (sqrt : ℝ → ℝ) (N fuel : Nat) (s : State ℝ) (e1 e2 : ℝ)
    (h : main_run sqrt N fuel 0 s = Except.ok (e1, e2)) : e1 = e2 := by
  unfold main_run at h
  split at h
  · cases h
  · split at h
    · cases h
    · rename_i s0 _ _ e hE
      simp only [steps, hE] at h
      cases h
      rfl

/-- With step count 0 and pairwise distinct positions the run returns, with two equal
energies. -/
theorem main_run_zero_total (N fuel : Nat) (s : State ℝ) (hN : N ≤ 23)
    (hf : N_PAIRS N < fuel) (hf1 : N < fuel)
    (hd : ∀ i j, i < j → j < N → (s.bodies i).x ≠ (s.bodies j).x) :
    ∃ e : ℝ, main_run Real.sqrt N fuel 0 s = Except.ok (e, e) := by
  obtain ⟨s0, h1, -, -, -⟩ := setup_total N fuel s hN hf hf1 hd
  obtain ⟨E, hE⟩ : ∃ E : ℝ, energy N fuel s0 = Except.ok E := ⟨_, energy_eq N fuel s0 hN hf1⟩
  refine ⟨E, ?_⟩
  unfold main_run
  rw [h1]
  simp only [steps, hE]

/-- The line of bodies of `line_state` has pairwise different positions. -/
theorem line_state_distinct (i j : Nat) (hij : i < j) :
    ((line_state : State ℝ).bodies i).x ≠ ((line_state : State ℝ).bodies j).x := by
  intro h
  have h0 := congrFun h 0
  simp only [line_state, if_true] at h0
  have : i = j := by exact_mod_cast h0
  omega

/-! ## The command-line argument -/

/-- One iteration of the loop of `main` returns when every `r2` entry of a pair is
nonzero. -/
theorem step_total (N fuel : Nat) (s : State ℝ) (hN : N ≤ 23) (hf : N_PAIRS N < fuel)
    (hf1 : N < fuel) (hr : ∀ p, p < N_PAIRS N → s.r2 p ≠ 0) :
    ∃ s1 : State ℝ, step N fuel s = Except.ok s1 := by
  obtain ⟨-, a, -, h1, -⟩ := advance_eq N fuel (by omega) hf1 s
    (fun i j hij hj => hr _ (wrapped_index_lt N i j hij hj))
  obtain ⟨b, h2, -⟩ := calc_distances_eq N fuel a hN hf1
  obtain ⟨c, h3, -⟩ := update_inv_r_eq N fuel b hN hf
  refine ⟨c, ?_⟩
  unfold step
  rw [h1]
  simp only []
  rw [h2]
  exact h3

/-- The state after `k + 1` iterations is one iteration after the state after `k`. -/
theorem steps_succ (N fuel : Nat) : ∀ (k : Nat) (s : State ℝ),
    steps N fuel (k + 1) s
      = match steps N fuel k s with
        | Except.ok sk => step N fuel sk
        | Except.error e => Except.error e := by
  intro k
  induction k with
  | zero =>
    intro s
    simp only [steps]
    cases step N fuel s <;> rfl
  | succ k ih =>
    intro s
    rw [steps]
    cases hs : step N fuel s with
    | error e => simp only [steps, hs]
    | ok s1 =>
      simp only []
      rw [ih s1]
      conv_rhs => rw [steps]
      simp only [hs]

/-- The calls before the first `printf` move no body. -/
theorem setup_positions (sqrt : ℝ → ℝ) (N fuel : Nat) (hN : N ≤ 23) (hf : N < fuel)
    (s s0 : State ℝ) (h : setup sqrt N fuel s = Except.ok s0) :
    ∀ k, (s0.bodies k).x = (s.bodies k).x := by
  obtain ⟨s1, h1, -, h3, -⟩ := calc_distances_current N fuel s hN hf
  unfold setup at h
  rw [h1] at h
  simp only [] at h
  split at h
  · cases h
  · rename_i s2 hs2
    obtain ⟨-, -, g3⟩ := calc_inv_r_frame sqrt N fuel s1 s2 hs2
    obtain ⟨s3, k1, -, -, -, k5⟩ := offset_momentum_frame N fuel (by omega) hf s2
    rw [k1] at h
    cases h
    intro k
    rw [k5 k, g3, h3]

/-- In a loop of `n` iterations that returns, every iteration `k + 1 ≤ n` starts from the
state after `k` iterations, and its `advance` call returns. -/
theorem steps_prefix (N fuel : Nat) : ∀ (n : Nat) (s0 sn : State ℝ),
    steps N fuel n s0 = Except.ok sn →
    ∀ k, k < n → ∃ sk a : State ℝ, steps N fuel k s0 = Except.ok sk
      ∧ steps N fuel (k + 1) s0 = step N fuel sk ∧ advance N fuel sk = Except.ok a := by
  intro n
  induction n with
  | zero => intro s0 sn _ k hk; omega
  | succ n ih =>
    intro s0 sn h k hk
    rw [steps_succ] at h
    split at h
    · rename_i sn1 hsn1
      rcases Nat.lt_or_ge k n with hlt | hge
      · exact ih s0 sn1 hsn1 k hlt
      · have hkn : k = n := by omega
        subst hkn
        have hstep : steps N fuel (k + 1) s0 = step N fuel sn1 := by
          rw [steps_succ, hsn1]
        have hadv : ∃ a : State ℝ, advance N fuel sn1 = Except.ok a := by
          unfold step at h
          split at h
          · cases h
          · rename_i a ha
            exact ⟨a, ha⟩
        obtain ⟨a, ha⟩ := hadv
        exact ⟨sn1, a, hsn1, hstep, ha⟩
    · cases h

/-- The loop of `main` returns unless it reaches a state with two bodies at one position. -/
theorem steps_total (N fuel : Nat) (hN : N ≤ 23) (hf : N_PAIRS N < fuel) (hf1 : N < fuel)
    (s0 : State ℝ) (h0 : geometry_current N s0) :
    ∀ n : Nat,
      (∀ (k : Nat) (sk : State ℝ), k < n → steps N fuel k s0 = Except.ok sk →
        ∀ i j, i < j → j < N → (sk.bodies i).x ≠ (sk.bodies j).x) →
      ∃ sn : State ℝ, steps N fuel n s0 = Except.ok sn := by
  intro n
  induction n with
  | zero => intro _; exact ⟨s0, rfl⟩
  | succ n ih =>
    intro hd
    obtain ⟨sn, hsn⟩ := ih (fun k sk hk hsk => hd k sk (by omega) hsk)
    have hcur := steps_current N fuel hN hf hf1 n s0 sn h0 hsn
    have hr : ∀ p, p < N_PAIRS N → sn.r2 p ≠ 0 := by
      intro p hp
      obtain ⟨i, j, hij, hj, rfl⟩ := pair_index_surj N p hp
      exact ne_of_gt ((r2_of_current N sn hcur i j hij hj).1
        (hd n sn (Nat.lt_succ_self n) hsn i j hij hj))
    obtain ⟨s1, hs1⟩ := step_total N fuel sn hN hf hf1 hr
    exact ⟨s1, by rw [steps_succ, hsn]; exact hs1⟩

/-- The calls of a run of `main` that returns: the first `energy()` call is made on the
state returned by the setup, the second on the state after the `n` iterations. -/
theorem main_run_calls (sqrt : ℝ → ℝ) (N fuel n : Nat) (s : State ℝ) (e1 e2 : ℝ)
    (h : main_run sqrt N fuel n s = Except.ok (e1, e2)) :
    ∃ s0 sn : State ℝ, setup sqrt N fuel s = Except.ok s0 ∧ energy N fuel s0 = Except.ok e1
      ∧ steps N fuel n s0 = Except.ok sn ∧ energy N fuel sn = Except.ok e2 := by
  unfold main_run at h
  split at h
  · cases h
  · rename_i s0 hs0
    split at h
    · cases h
    · rename_i v1 hv1
      split at h
      · cases h
      · rename_i sn hsn
        split at h
        · cases h
        · rename_i v2 hv2
          cases h
          exact ⟨s0, sn, hs0, hv1, hsn, hv2⟩

/-! ## The polishing step and Halley's method -/

theorem halley_denominator (z r2 : ℝ) (hz : z ≠ 0) :
    2 * (-2 / z ^ 3) ^ 2 - (1 / z ^ 2 - r2) * (6 / z ^ 4)
      = 2 * (1 + 3 * (r2 * z ^ 2)) / z ^ 6 := by
  field_simp
  ring

/-- The Halley iterate for `f(z) = 1/z^2 - r2` is `z * (3 + y) / (1 + 3 y)` with
`y = r2 * z^2`. -/
theorem halley_iterate_eq (z r2 : ℝ) (hz : z ≠ 0) (h3 : 1 + 3 * (r2 * z ^ 2) ≠ 0) :
    halley_iterate z r2 = z * (3 + r2 * z ^ 2) / (1 + 3 * (r2 * z ^ 2)) := by
  unfold halley_iterate
  rw [halley_denominator z r2 hz]
  field_simp
  ring

theorem halley_step_value (p : Nat) (s : State ℝ) :
    (halley_step p s).inv_r p
      = s.inv_r p * (15 + s.r2 p * s.inv_r p ^ 2 * (3 * (s.r2 p * s.inv_r p ^ 2) - 10)) / 8 := by
  simp only [halley_step, Function.update_same]
  norm_num
  ring

/-- The multiplier of the polishing step is at least `5/6`. -/
theorem halley_multiplier_ge (y : ℝ) : 5 / 6 ≤ 0.125 * (15 + y * (3 * y - 10)) := by
  norm_num
  nlinarith [sq_nonneg (3 * y - 5)]

/-- One iteration of the loop of `main` keeps every `inv_r` entry of a pair positive. -/
theorem step_inv_r_pos (N fuel : Nat) (hN : N ≤ 23) (hf : N_PAIRS N < fuel) (hf1 : N < fuel)
    (s s1 : State ℝ) (hpos : ∀ p, p < N_PAIRS N → 0 < s.inv_r p)
    (h : step N fuel s = Except.ok s1) : ∀ p, p < N_PAIRS N → 0 < s1.inv_r p := by
  unfold step at h
  split at h
  · cases h
  · rename_i a ha
    obtain ⟨-, -, ha3⟩ := advance_frame N fuel s a ha
    obtain ⟨b, h1, -, -, hb⟩ := calc_distances_eq N fuel a hN hf1
    rw [h1] at h
    simp only [] at h
    obtain ⟨c, k1, k2, -⟩ := update_inv_r_eq N fuel b hN hf
    rw [k1] at h
    cases h
    intro p hp
    rw [k2 p, if_pos hp, hb, ha3]
    exact mul_pos (hpos p hp) (lt_of_lt_of_le (by norm_num) (halley_multiplier_ge _))

/-- Any number of iterations keeps every `inv_r` entry of a pair positive. -/
theorem steps_inv_r_pos (N fuel : Nat) (hN : N ≤ 23) (hf : N_PAIRS N < fuel) (hf1 : N < fuel) :
    ∀ (n : Nat) (s sn : State ℝ), (∀ p, p < N_PAIRS N → 0 < s.inv_r p) →
      steps N fuel n s = Except.ok sn → ∀ p, p < N_PAIRS N → 0 < sn.inv_r p := by
  intro n
  induction n with
  | zero =>
    intro s sn hs h
    simp only [steps] at h
    cases h
    exact hs
  | succ n ih =>
    intro s sn hs h
    simp only [steps] at h
    split at h
    · cases h
    · rename_i s1 hs1
      exact ih s1 sn (step_inv_r_pos N fuel hN hf hf1 s s1 hs hs1) h

/-- The values seen by the body of a counting loop whose bound fits the counter are
`0, 1, ..., bound - 1`. -/
theorem index_trace_eq (bound fuel : Nat) (hb : bound ≤ 255) (hf : bound < fuel) :
    index_trace bound fuel = Except.ok (List.range bound) := by
  unfold index_trace
  rw [for_index_pure bound fuel hb hf (fun k (t : List Nat) => t ++ [k]) [],
    foldl_append_singleton (fun k => k)]
  simp

/-! ## Claims -/

/-- C1 (as stated, refuted): with two bodies of mass 1 and velocity `(1, 1, 1)` the mass
of body 0 is nonzero, `offset_momentum` returns, and the total momentum afterwards is
not zero in component 0: the code divides by the constant `solar_mass`, not by the mass
of body 0. -/
theorem offset_momentum_unit_masses_not_zero :
    ∃ s1 : State ℝ, ((unit_state : State ℝ).bodies 0).mass ≠ 0
      ∧ offset_momentum 2 3 (unit_state : State ℝ) = Except.ok s1
      ∧ ∑ i in Finset.range 2, (s1.bodies i).mass * (s1.bodies i).v 0 ≠ 0 := by
  refine ⟨_, ?_, offset_momentum_eq 2 3 (by norm_num) (by norm_num) _, ?_⟩
  · simp [unit_state]
  · simp only [Finset.sum_range_succ, Finset.sum_range_zero, unit_state, Function.update,
      solar_mass, pi]
    norm_num

/-- C1 (amended): for every state with `1 ≤ N ≤ 255` bodies in which the mass of body 0
equals `solar_mass`, `offset_momentum` returns (given fuel for `N` iterations) and the
total momentum `Σ mass_i * v_i` of the returned state is zero in each component. -/
theorem offset_momentum_total_zero (N fuel : Nat) (s : State ℝ) (hN1 : 1 ≤ N)
    (hN : N ≤ 255) (hf : N < fuel) (hm : (s.bodies 0).mass = solar_mass) :
    ∃ s1 : State ℝ, offset_momentum N fuel s = Except.ok s1
      ∧ ∀ c : Fin 3, ∑ i in Finset.range N, (s1.bodies i).mass * (s1.bodies i).v c = 0 := by
  refine ⟨_, offset_momentum_eq N fuel hN hf s, ?_⟩
  intro c
  have h0 : 0 ∈ Finset.range N := Finset.mem_range.mpr hN1
  have hpt : ∀ i ∈ Finset.range N,
      (Function.update s.bodies 0 (⟨(s.bodies 0).x, fun c => (s.bodies 0).v c
          - (∑ i in Finset.range N, (s.bodies i).mass * (s.bodies i).v c) * (1 / solar_mass),
        (s.bodies 0).mass⟩ : body ℝ) i).mass
        * (Function.update s.bodies 0 (⟨(s.bodies 0).x, fun c => (s.bodies 0).v c
          - (∑ i in Finset.range N, (s.bodies i).mass * (s.bodies i).v c) * (1 / solar_mass),
        (s.bodies 0).mass⟩ : body ℝ) i).v c
      = (s.bodies i).mass * (s.bodies i).v c
        - (if i = 0 then ∑ i in Finset.range N, (s.bodies i).mass * (s.bodies i).v c else 0) := by
    intro i _
    by_cases hi : i = 0
    · subst hi
      simp only [Function.update_same, if_true]
      rw [hm]
      field_simp [solar_mass_ne_zero]
      ring
    · simp [Function.update_noteq hi, hi]
  simp only []
  rw [Finset.sum_congr rfl hpt, Finset.sum_sub_distrib, Finset.sum_ite_eq' (Finset.range N) 0]
  simp [h0]

/-- C1 witness: five bodies of mass `solar_mass`. -/
theorem offset_momentum_total_zero_witness :
    ∃ s1 : State ℝ, offset_momentum 5 6 (solar_state : State ℝ) = Except.ok s1
      ∧ ∀ c : Fin 3, ∑ i in Finset.range 5, (s1.bodies i).mass * (s1.bodies i).v c = 0 :=
  offset_momentum_total_zero 5 6 solar_state (by norm_num) (by norm_num) (by norm_num) rfl

/-- C2 (as stated, refuted): with 24 bodies the 8-bit pair counter wraps. The loop hands
the pair `(17, 19)` the counter value 0, which differs from the closed form
`pair_index 24 17 19 = 256` and is the value already handed to the pair `(0, 1)`. -/
theorem pair_counter_wraps_at_24 :
    ∃ L, pair_trace 24 25 = Except.ok L ∧ (0, 1, 0) ∈ L ∧ (17, 19, 0) ∈ L
      ∧ pair_index 24 17 19 = 256 := by
  refine ⟨_, pair_loop_eq_pair_run 24 25 (by norm_num) (by norm_num) _ _ _ |>.trans
    (pair_run_trace _ 24), ?_, ?_, ?_⟩
  · decide
  · decide
  · decide

/-- C2 (amended): for every body count `N ≤ 23` the nested loops (given fuel for
`N` iterations per loop) visit exactly the pairs `i < j < N`, in row-major order, and
hand the pair `(i, j)` the counter `pair_index N i j = i*N - i*(i+1)/2 + (j-i-1)`;
the counters along the visits are `0, 1, ..., N_PAIRS N - 1`, so each pair is visited
once and the map is a bijection from the pairs onto `[0, N_PAIRS N)`; `calc_distances`,
the velocity pass of `advance` and `energy` run their bodies with this map. -/
theorem pair_counter_row_major (N fuel : Nat) (hN : N ≤ 23) (hf : N < fuel) :
    pair_trace N fuel = Except.ok (pair_list N)
      ∧ (pair_list N).map (fun t => t.2.2) = List.range (N_PAIRS N)
      ∧ (pair_list N).Nodup
      ∧ (∀ i j q, (i, j, q) ∈ pair_list N ↔ (i < j ∧ j < N ∧ q = pair_index N i j))
      ∧ Set.BijOn (fun ij : Nat × Nat => pair_index N ij.1 ij.2)
          {ij | ij.1 < ij.2 ∧ ij.2 < N} (Set.Iio (N_PAIRS N))
      ∧ (∀ s : State ℝ, calc_distances N fuel s
          = pair_run (pair_index N) N (fun _ t => t)
              (fun i j p t => Except.ok (calc_distances_pair i j p t)) s)
      ∧ (∀ s : State ℝ, advance N fuel s
          = match pair_run (pair_index N) N (fun _ t => t) advance_pair s with
            | Except.error e => Except.error e
            | Except.ok s1 =>
              for_index N (fun i t => Except.ok (advance_position i t)) fuel 0 s1)
      ∧ (∀ s : State ℝ, energy N fuel s
          = pair_run (pair_index N) N
              (fun i e => e + 0.5 * (s.bodies i).mass * vec3_norm2 (s.bodies i).v)
              (fun i j p e =>
                Except.ok (e - ((s.bodies i).mass * (s.bodies j).mass) * s.inv_r p)) 0) := by
  refine ⟨pair_trace_eq N fuel hN hf, pair_list_indices N, ?_, mem_pair_list N, ?_, ?_, ?_, ?_⟩
  · apply List.Nodup.of_map (fun t : Nat × Nat × Nat => t.2.2)
    rw [pair_list_indices]
    exact List.nodup_range _
  · refine ⟨?_, ?_, ?_⟩
    · rintro ⟨i, j⟩ ⟨h1, h2⟩
      exact pair_index_lt N i j h1 h2
    · rintro ⟨i, j⟩ ⟨h1, h2⟩ ⟨i1, j1⟩ ⟨h3, h4⟩ h
      obtain ⟨rfl, rfl⟩ := pair_index_inj N i j i1 j1 h1 h2 h3 h4 h
      rfl
    · intro p hp
      obtain ⟨i, j, h1, h2, h3⟩ := pair_index_surj N p hp
      exact ⟨(i, j), ⟨h1, h2⟩, h3⟩
  · intro s
    exact pair_loop_eq_pair_index N fuel hN hf _ _ s
  · intro s
    unfold advance
    rw [pair_loop_eq_pair_index N fuel hN hf]
    generalize pair_run (pair_index N) N (fun _ t => t) advance_pair s = r
    cases r <;> rfl
  · intro s
    exact pair_loop_eq_pair_index N fuel hN hf _ _ 0

/-- C2 witness: the five bodies of the source, ten pairs. -/
theorem pair_counter_row_major_witness :
    pair_trace 5 6 = Except.ok (pair_list 5)
      ∧ (pair_list 5).map (fun t => t.2.2) = List.range (N_PAIRS 5)
      ∧ Set.BijOn (fun ij : Nat × Nat => pair_index 5 ij.1 ij.2)
          {ij | ij.1 < ij.2 ∧ ij.2 < 5} (Set.Iio (N_PAIRS 5)) :=
  have h := pair_counter_row_major 5 6 (by decide) (by decide)
  ⟨h.1, h.2.1, h.2.2.2.2.1⟩

/-- C3 (as stated, refuted): two bodies at rest with masses `m0 = 1`, `m1 = 2` and cache
entry `dr = (1, 1, 1)`, `r2 = 1`, `inv_r = 1`. `advance` returns and, in component 0,
`m1 * dv0` differs from `-(m0 * dv1)`. -/
theorem advance_two_body_swapped_masses_fails :
    ∃ s1 : State ℝ, (two_body_state : State ℝ).r2 0 ≠ 0
      ∧ advance 2 3 (two_body_state : State ℝ) = Except.ok s1
      ∧ ((two_body_state : State ℝ).bodies 1).mass
          * ((s1.bodies 0).v 0 - ((two_body_state : State ℝ).bodies 0).v 0)
        ≠ -(((two_body_state : State ℝ).bodies 0).mass
          * ((s1.bodies 1).v 0 - ((two_body_state : State ℝ).bodies 1).v 0)) := by
  have hr : (two_body_state : State ℝ).r2 0 ≠ 0 := by simp [two_body_state]
  obtain ⟨s1, h1, -, h3, h4⟩ := advance_two_bodies 3 two_body_state (by norm_num) hr
  refine ⟨s1, hr, h1, ?_⟩
  rw [h3 0, h4 0]
  simp only [pair_kick, two_body_state, dt]
  norm_num

/-- C3 (amended): for a 2-body system, for every state whose cache entry `r2[0]` is
nonzero (and fuel for 2 iterations per loop), `advance` returns, keeps the masses, and
the velocity changes `dv0`, `dv1` of the bodies 0 and 1 satisfy
`m0 * dv0 = -(m1 * dv1)` in every component. -/
theorem advance_two_body_symmetry (fuel : Nat) (s : State ℝ) (hf : 2 < fuel)
    (hr : s.r2 0 ≠ 0) :
    ∃ s1 : State ℝ, advance 2 fuel s = Except.ok s1
      ∧ (∀ k, (s1.bodies k).mass = (s.bodies k).mass)
      ∧ ∀ c, (s.bodies 0).mass * ((s1.bodies 0).v c - (s.bodies 0).v c)
          = -((s.bodies 1).mass * ((s1.bodies 1).v c - (s.bodies 1).v c)) := by
  obtain ⟨s1, h1, h2, h3, h4⟩ := advance_two_bodies fuel s hf hr
  refine ⟨s1, h1, h2, fun c => ?_⟩
  rw [h3 c, h4 c]
  simp only [pair_kick]
  ring

/-- C3 witness: the two bodies of masses 1 and 2. -/
theorem advance_two_body_symmetry_witness :
    ∃ s1 : State ℝ, advance 2 3 (two_body_state : State ℝ) = Except.ok s1
      ∧ (∀ k, (s1.bodies k).mass = ((two_body_state : State ℝ).bodies k).mass)
      ∧ ∀ c, ((two_body_state : State ℝ).bodies 0).mass
            * ((s1.bodies 0).v c - ((two_body_state : State ℝ).bodies 0).v c)
          = -(((two_body_state : State ℝ).bodies 1).mass
            * ((s1.bodies 1).v c - ((two_body_state : State ℝ).bodies 1).v c)) :=
  advance_two_body_symmetry 3 two_body_state (by norm_num) (by simp [two_body_state])

/-- C4: momentum conservation of `advance`. For every body count `N`, every fuel,
every body state and every contents of the caches `dr`, `r2`, `inv_r` (stale or not):
every call of `advance` that returns leaves the total momentum `Σ mass_i * v_i` of the
bodies `0, ..., N - 1` unchanged in every component and leaves every mass unchanged; and
the call returns when `N ≤ 255` (the body counts for which the loops over the 8-bit
counter finish), the fuel covers `N` iterations per loop and `r2[p]` is nonzero for
every `p < N_PAIRS N`. -/
theorem advance_conserves_momentum (N fuel : Nat) (s : State ℝ) :
    (∀ s1 : State ℝ, advance N fuel s = Except.ok s1 →
        (∀ c, ∑ k in Finset.range N, (s1.bodies k).mass * (s1.bodies k).v c
          = ∑ k in Finset.range N, (s.bodies k).mass * (s.bodies k).v c)
        ∧ ∀ k, (s1.bodies k).mass = (s.bodies k).mass)
      ∧ (N ≤ 255 → N < fuel → (∀ p, p < N_PAIRS N → s.r2 p ≠ 0) →
          ∃ s1 : State ℝ, advance N fuel s = Except.ok s1) := by
  constructor
  · intro s1 h
    obtain ⟨h1, h2⟩ := advance_momentum_partial N fuel s s1 h
    exact ⟨h2, h1⟩
  · intro hN hf hr
    obtain ⟨-, s1, -, h1, -⟩ := advance_eq N fuel hN hf s
      (fun i j hij hj => hr _ (wrapped_index_lt N i j hij hj))
    exact ⟨s1, h1⟩

/-- C4 witness: five bodies, every cache entry 1: the call returns and conserves the
total momentum and the masses. -/
theorem advance_conserves_momentum_witness :
    ∃ s1 : State ℝ, advance 5 6 (unit_state : State ℝ) = Except.ok s1
      ∧ (∀ c, ∑ k in Finset.range 5, (s1.bodies k).mass * (s1.bodies k).v c
          = ∑ k in Finset.range 5, ((unit_state : State ℝ).bodies k).mass
              * ((unit_state : State ℝ).bodies k).v c)
      ∧ ∀ k, (s1.bodies k).mass = ((unit_state : State ℝ).bodies k).mass :=
  have h := advance_conserves_momentum 5 6 (unit_state : State ℝ)
  (h.2 (by decide) (by decide) (fun _ _ => by simp [unit_state])).elim
    fun s1 hs1 => ⟨s1, hs1, (h.1 s1 hs1).1, (h.1 s1 hs1).2⟩

/-- C5: refinement convergence, with the constant `C = 2`. For every previous distance
`r > 0` and every perturbation `eps` with `|eps| ≤ r / 2`, if `inv_r[p] = 1 / r` is the
stale value and `r2[p] = (r + eps)^2` the new squared distance of a pair `p`, then
`update_inv_r` (one polishing step, `NR_ITS = 1`) returns a state whose `inv_r[p] = u`
satisfies `|u * (r + eps) - 1| ≤ 2 * (eps / r)^2`. -/
theorem update_inv_r_quadratic_convergence (r eps : ℝ) (N fuel p : Nat) (s : State ℝ)
    (hr : 0 < r) (heps : |eps| ≤ r / 2) (hN : N ≤ 23) (hf : N_PAIRS N < fuel)
    (hp : p < N_PAIRS N) (hinv : s.inv_r p = 1 / r) (hr2 : s.r2 p = (r + eps) ^ 2) :
    ∃ s1 : State ℝ, update_inv_r N fuel s = Except.ok s1
      ∧ |s1.inv_r p * (r + eps) - 1| ≤ 2 * (eps / r) ^ 2 := by
  obtain ⟨s1, h1, h2, -⟩ := update_inv_r_eq N fuel s hN hf
  refine ⟨s1, h1, ?_⟩
  rw [h2 p, if_pos hp, hinv, hr2, halley_error r eps hr]
  apply cubic_error_bound
  rw [abs_div, abs_of_pos hr, div_le_iff₀ hr]
  linarith

/-- C5 witness: previous distance 1, perturbation 1/2, five bodies, pair 0. -/
theorem update_inv_r_quadratic_convergence_witness :
    ∃ s1 : State ℝ, update_inv_r 5 11 (stale_state : State ℝ) = Except.ok s1
      ∧ |s1.inv_r 0 * (1 + 1 / 2) - 1| ≤ 2 * ((1 / 2) / 1) ^ 2 :=
  update_inv_r_quadratic_convergence 1 (1 / 2) 5 11 0 stale_state (by norm_num)
    (by norm_num [abs_of_pos]) (by decide) (by decide) (by decide)
    (by simp [stale_state]) (by simp [stale_state])

/-- C6: exact mode. For every state (with `N ≤ 23` bodies and fuel for `N_PAIRS N`
iterations) in which every `r2[p]`, `p < N_PAIRS N`, is strictly positive, `calc_inv_r`
(with the real square root) returns; afterwards every pair `p` has
`inv_r[p] = 1 / sqrt(r2[p]) > 0`, `inv_r[p]^2 * r2[p] = 1` and
`inv_r[p] * sqrt(r2[p]) - 1 = 0`; `dr`, `r2` and the bodies are unchanged. -/
theorem calc_inv_r_exact (N fuel : Nat) (s : State ℝ) (hN : N ≤ 23) (hf : N_PAIRS N < fuel)
    (hpos : ∀ p, p < N_PAIRS N → 0 < s.r2 p) :
    ∃ s1 : State ℝ, calc_inv_r Real.sqrt N fuel s = Except.ok s1
      ∧ (∀ p, p < N_PAIRS N →
          s1.inv_r p = 1 / Real.sqrt (s1.r2 p) ∧ 0 < s1.inv_r p
            ∧ s1.inv_r p ^ 2 * s1.r2 p = 1
            ∧ s1.inv_r p * Real.sqrt (s1.r2 p) - 1 = 0)
      ∧ s1.dr = s.dr ∧ s1.r2 = s.r2 ∧ s1.bodies = s.bodies := by
  obtain ⟨s1, h1, h2, h3, h4, h5⟩ := calc_inv_r_eq N fuel s hN hf hpos
  refine ⟨s1, h1, ?_, h3, h4, h5⟩
  intro p hp
  have hr := hpos p hp
  have hs : 0 < Real.sqrt (s.r2 p) := Real.sqrt_pos.mpr hr
  have hsq : Real.sqrt (s.r2 p) ^ 2 = s.r2 p := Real.sq_sqrt (le_of_lt hr)
  rw [h2 p, if_pos hp, h4]
  refine ⟨rfl, by positivity, ?_, ?_⟩
  · rw [div_pow, one_pow, hsq]
    field_simp
  · field_simp

/-- C6 witness: the five-body cache with every squared distance 1. -/
theorem calc_inv_r_exact_witness :
    ∃ s1 : State ℝ, calc_inv_r Real.sqrt 5 11 (unit_state : State ℝ) = Except.ok s1
      ∧ (∀ p, p < N_PAIRS 5 →
          s1.inv_r p = 1 / Real.sqrt (s1.r2 p) ∧ 0 < s1.inv_r p
            ∧ s1.inv_r p ^ 2 * s1.r2 p = 1
            ∧ s1.inv_r p * Real.sqrt (s1.r2 p) - 1 = 0)
      ∧ s1.dr = (unit_state : State ℝ).dr ∧ s1.r2 = (unit_state : State ℝ).r2
      ∧ s1.bodies = (unit_state : State ℝ).bodies :=
  calc_inv_r_exact 5 11 unit_state (by decide) (by decide)
    (fun _ _ => by simp [unit_state])

/-- C7: refinement mode. For every state (with `N ≤ 23` bodies and fuel for `N_PAIRS N`
iterations) `update_inv_r` returns; for every pair index `p < N_PAIRS N` the new
`inv_r[p]` is `inv_r[p] * (15 + y * (3*y - 10)) / 8` with `y = r2[p] * inv_r[p]^2`
taken from the values before the call (one correction per pair); entries of `inv_r`
from `N_PAIRS N` on, `dr`, `r2` and the bodies are unchanged. -/
theorem update_inv_r_single_correction (N fuel : Nat) (s : State ℝ) (hN : N ≤ 23)
    (hf : N_PAIRS N < fuel) :
    ∃ s1 : State ℝ, update_inv_r N fuel s = Except.ok s1
      ∧ (∀ p, p < N_PAIRS N →
          s1.inv_r p = s.inv_r p
            * (15 + s.r2 p * s.inv_r p ^ 2 * (3 * (s.r2 p * s.inv_r p ^ 2) - 10)) / 8)
      ∧ (∀ p, N_PAIRS N ≤ p → s1.inv_r p = s.inv_r p)
      ∧ s1.dr = s.dr ∧ s1.r2 = s.r2 ∧ s1.bodies = s.bodies := by
  obtain ⟨s1, h1, h2, h3, h4, h5⟩ := update_inv_r_eq N fuel s hN hf
  refine ⟨s1, h1, ?_, ?_, h3, h4, h5⟩
  · intro p hp
    rw [h2 p, if_pos hp]
    norm_num
    ring
  · intro p hp
    rw [h2 p, if_neg (by omega)]

/-- C7 witness: the five-body cache with every entry 1. -/
theorem update_inv_r_single_correction_witness :
    ∃ s1 : State ℝ, update_inv_r 5 11 (unit_state : State ℝ) = Except.ok s1
      ∧ (∀ p, p < N_PAIRS 5 →
          s1.inv_r p = (unit_state : State ℝ).inv_r p
            * (15 + (unit_state : State ℝ).r2 p * (unit_state : State ℝ).inv_r p ^ 2
              * (3 * ((unit_state : State ℝ).r2 p * (unit_state : State ℝ).inv_r p ^ 2) - 10)) / 8)
      ∧ (∀ p, N_PAIRS 5 ≤ p → s1.inv_r p = (unit_state : State ℝ).inv_r p)
      ∧ s1.dr = (unit_state : State ℝ).dr ∧ s1.r2 = (unit_state : State ℝ).r2
      ∧ s1.bodies = (unit_state : State ℝ).bodies :=
  update_inv_r_single_correction 5 11 unit_state (by decide) (by decide)

/-- C8: geometry cache. For every state (with `N ≤ 23` bodies and fuel for `N`
iterations per loop) `calc_distances` returns; afterwards every pair `i < j < N` has, at
its index `pair_index N i j`, `dr = x_i - x_j` componentwise and
`r2 = dr[0]^2 + dr[1]^2 + dr[2]^2`; every index below `N_PAIRS N` is the index of a pair,
and a run from any other state with the same bodies yields the same `dr` and `r2` there
(every entry is overwritten); the bodies and `inv_r` are unchanged. -/
theorem calc_distances_fills_cache (N fuel : Nat) (s : State ℝ) (hN : N ≤ 23)
    (hf : N < fuel) :
    ∃ s1 : State ℝ, calc_distances N fuel s = Except.ok s1
      ∧ (∀ i j, i < j → j < N →
          (∀ c, s1.dr (pair_index N i j) c = (s.bodies i).x c - (s.bodies j).x c)
          ∧ s1.r2 (pair_index N i j) = s1.dr (pair_index N i j) 0 ^ 2
              + s1.dr (pair_index N i j) 1 ^ 2 + s1.dr (pair_index N i j) 2 ^ 2)
      ∧ (∀ p, p < N_PAIRS N → ∃ i j, i < j ∧ j < N ∧ pair_index N i j = p)
      ∧ (∀ s0 : State ℝ, s0.bodies = s.bodies →
          ∃ s2 : State ℝ, calc_distances N fuel s0 = Except.ok s2
            ∧ ∀ p, p < N_PAIRS N → s2.dr p = s1.dr p ∧ s2.r2 p = s1.r2 p)
      ∧ s1.bodies = s.bodies ∧ s1.inv_r = s.inv_r := by
  obtain ⟨s1, h1, h2, h3, h4⟩ := calc_distances_eq N fuel s hN hf
  refine ⟨s1, h1, ?_, pair_index_surj N, ?_, h3, h4⟩
  · intro i j hij hj
    obtain ⟨g1, g2⟩ := h2 i j hij hj
    refine ⟨fun c => by rw [g1]; rfl, ?_⟩
    rw [g2, g1]
    simp only [vec3_norm2]
    ring
  · intro s0 hs0
    obtain ⟨s2, g1, g2, -, -⟩ := calc_distances_eq N fuel s0 hN hf
    refine ⟨s2, g1, ?_⟩
    intro p hp
    obtain ⟨i, j, hij, hj, rfl⟩ := pair_index_surj N p hp
    obtain ⟨e1, e2⟩ := h2 i j hij hj
    obtain ⟨e3, e4⟩ := g2 i j hij hj
    rw [e1, e2, e3, e4, hs0]
    exact ⟨rfl, rfl⟩

/-- C8 witness: five bodies. -/
theorem calc_distances_fills_cache_witness :
    ∃ s1 : State ℝ, calc_distances 5 6 (unit_state : State ℝ) = Except.ok s1
      ∧ (∀ i j, i < j → j < 5 →
          (∀ c, s1.dr (pair_index 5 i j) c
            = ((unit_state : State ℝ).bodies i).x c - ((unit_state : State ℝ).bodies j).x c)
          ∧ s1.r2 (pair_index 5 i j) = s1.dr (pair_index 5 i j) 0 ^ 2
              + s1.dr (pair_index 5 i j) 1 ^ 2 + s1.dr (pair_index 5 i j) 2 ^ 2)
      ∧ s1.bodies = (unit_state : State ℝ).bodies
      ∧ s1.inv_r = (unit_state : State ℝ).inv_r :=
  have h := calc_distances_fills_cache 5 6 (unit_state : State ℝ) (by decide) (by decide)
  h.elim fun s1 hs => ⟨s1, hs.1, hs.2.1, hs.2.2.2.2.1, hs.2.2.2.2.2⟩

/-- C9: velocity pass of `advance`. For every state (with `N ≤ 23` bodies and fuel for
`N` iterations per loop) whose `r2[p]` is nonzero for every `p < N_PAIRS N`, `advance`
returns and the velocity of every body `k < N` afterwards is
`v_k - Σ_{j > k} dr[p(k,j)] * mass_j * mag(k,j) + Σ_{i < k} dr[p(i,k)] * mass_i * mag(i,k)`
with `mag(a,b) = dt * inv_r[p(a,b)] / r2[p(a,b)]` read from the cache at entry: every
pair contributes one term to each of its two bodies. -/
theorem advance_velocity_pass (N fuel : Nat) (s : State ℝ) (hN : N ≤ 23) (hf : N < fuel)
    (hr : ∀ p, p < N_PAIRS N → s.r2 p ≠ 0) :
    ∃ s1 : State ℝ, advance N fuel s = Except.ok s1
      ∧ ∀ k c, k < N → (s1.bodies k).v c = (s.bodies k).v c
          - ∑ j in Finset.Ico (k + 1) N, s.dr (pair_index N k j) c * (s.bodies j).mass
              * (dt * s.inv_r (pair_index N k j) / s.r2 (pair_index N k j))
          + ∑ i in Finset.range k, s.dr (pair_index N i k) c * (s.bodies i).mass
              * (dt * s.inv_r (pair_index N i k) / s.r2 (pair_index N i k)) := by
  obtain ⟨sv, s1, -, h1, -, -, -, -, -, h6, -⟩ := advance_eq N fuel (by omega) hf s
    (fun i j hij hj => hr _ (wrapped_index_lt N i j hij hj))
  refine ⟨s1, h1, fun k c hk => ?_⟩
  rw [h6 k c, if_pos hk]
  have e1 : ∑ b in Finset.Ico (k + 1) N,
        pair_kick s (index_t (pair_index N k b)) (s.bodies b).mass c
      = ∑ j in Finset.Ico (k + 1) N, s.dr (pair_index N k j) c * (s.bodies j).mass
          * (dt * s.inv_r (pair_index N k j) / s.r2 (pair_index N k j)) := by
    apply Finset.sum_congr rfl
    intro b hb
    have hb1 := Finset.mem_Ico.mp hb
    rw [wrapped_index_eq N k b hN (by omega) hb1.2]
    simp only [pair_kick]
    ring
  have e2 : ∑ a in Finset.range N, (if a < k ∧ k < N then
        pair_kick s (index_t (pair_index N a k)) (s.bodies a).mass c else 0)
      = ∑ i in Finset.range k, s.dr (pair_index N i k) c * (s.bodies i).mass
          * (dt * s.inv_r (pair_index N i k) / s.r2 (pair_index N i k)) := by
    have e3 : ∀ a ∈ Finset.range N, (if a < k ∧ k < N then
          pair_kick s (index_t (pair_index N a k)) (s.bodies a).mass c else 0)
        = if a < k then s.dr (pair_index N a k) c * (s.bodies a).mass
          * (dt * s.inv_r (pair_index N a k) / s.r2 (pair_index N a k)) else 0 := by
      intro a _
      by_cases hak : a < k
      · rw [if_pos ⟨hak, hk⟩, if_pos hak, wrapped_index_eq N a k hN hak hk]
        simp only [pair_kick]
        ring
      · rw [if_neg (fun h => hak h.1), if_neg hak]
    rw [Finset.sum_congr rfl e3, sum_range_ite_lt, Nat.min_eq_right (Nat.le_of_lt hk)]
  rw [e1, e2]

/-- C9 witness: five bodies, every cache entry 1. -/
theorem advance_velocity_pass_witness :
    ∃ s1 : State ℝ, advance 5 6 (unit_state : State ℝ) = Except.ok s1
      ∧ ∀ k c, k < 5 → (s1.bodies k).v c = ((unit_state : State ℝ).bodies k).v c
          - ∑ j in Finset.Ico (k + 1) 5, (unit_state : State ℝ).dr (pair_index 5 k j) c
              * ((unit_state : State ℝ).bodies j).mass
              * (dt * (unit_state : State ℝ).inv_r (pair_index 5 k j)
                  / (unit_state : State ℝ).r2 (pair_index 5 k j))
          + ∑ i in Finset.range k, (unit_state : State ℝ).dr (pair_index 5 i k) c
              * ((unit_state : State ℝ).bodies i).mass
              * (dt * (unit_state : State ℝ).inv_r (pair_index 5 i k)
                  / (unit_state : State ℝ).r2 (pair_index 5 i k)) :=
  advance_velocity_pass 5 6 unit_state (by decide) (by decide)
    (fun _ _ => by simp [unit_state])

/-- C10: position pass of `advance`. For every state (with `N ≤ 255` bodies and fuel
for `N` iterations per loop) whose `r2[p]` is nonzero for every `p < N_PAIRS N`, the
velocity pass returns a state `sv`, `advance` returns a state `s1` with the velocities
of `sv` (all pair updates applied), and the position of every body `k < N` in `s1` is
`x_k + dt * v_k'` with `v_k'` the velocity of `k` in `sv`, which is also its velocity in
`s1`; `dr`, `r2` and `inv_r` are unchanged. -/
theorem advance_position_pass (N fuel : Nat) (s : State ℝ) (hN : N ≤ 255) (hf : N < fuel)
    (hr : ∀ p, p < N_PAIRS N → s.r2 p ≠ 0) :
    ∃ sv s1 : State ℝ, pair_loop N fuel (fun _ t => t) advance_pair s = Except.ok sv
      ∧ advance N fuel s = Except.ok s1
      ∧ (∀ k, (s1.bodies k).v = (sv.bodies k).v)
      ∧ (∀ k c, k < N → (s1.bodies k).x c = (s.bodies k).x c + dt * (sv.bodies k).v c)
      ∧ (∀ k c, k < N → (s1.bodies k).x c = (s.bodies k).x c + dt * (s1.bodies k).v c)
      ∧ s1.dr = s.dr ∧ s1.r2 = s.r2 ∧ s1.inv_r = s.inv_r := by
  obtain ⟨sv, s1, h0, h1, h2, h3, h4, -, h5, -, h7⟩ := advance_eq N fuel hN hf s
    (fun i j hij hj => hr _ (wrapped_index_lt N i j hij hj))
  refine ⟨sv, s1, h0, h1, h5, fun k c hk => ?_, fun k c hk => ?_, h2, h3, h4⟩
  · rw [h7 k c, if_pos hk]
  · rw [h7 k c, if_pos hk, h5 k]

/-- C10 witness: five bodies, every cache entry 1. -/
theorem advance_position_pass_witness :
    ∃ sv s1 : State ℝ,
      pair_loop 5 6 (fun _ t => t) advance_pair (unit_state : State ℝ) = Except.ok sv
      ∧ advance 5 6 (unit_state : State ℝ) = Except.ok s1
      ∧ (∀ k, (s1.bodies k).v = (sv.bodies k).v)
      ∧ (∀ k c, k < 5 → (s1.bodies k).x c
          = ((unit_state : State ℝ).bodies k).x c + dt * (sv.bodies k).v c)
      ∧ (∀ k c, k < 5 → (s1.bodies k).x c
          = ((unit_state : State ℝ).bodies k).x c + dt * (s1.bodies k).v c)
      ∧ s1.dr = (unit_state : State ℝ).dr ∧ s1.r2 = (unit_state : State ℝ).r2
      ∧ s1.inv_r = (unit_state : State ℝ).inv_r :=
  advance_position_pass 5 6 unit_state (by decide) (by decide)
    (fun _ _ => by simp [unit_state])

/-- C11: energy diagnostic. For every body state and every `inv_r` cache (with
`N ≤ 23` bodies and fuel for `N` iterations per loop) `energy` returns
`Σ_i 0.5 * mass_i * |v_i|^2 - Σ_{i<j} mass_i * mass_j * inv_r[p(i,j)]`, with
`|v|^2 = v[0]^2 + v[1]^2 + v[2]^2` and `p(i,j) = pair_index N i j`. (`energy` is
embedded as a function from the state to the value: it writes no global.) -/
theorem energy_kinetic_minus_potential (N fuel : Nat) (s : State ℝ) (hN : N ≤ 23)
    (hf : N < fuel) :
    energy N fuel s = Except.ok
      (∑ i in Finset.range N, 0.5 * (s.bodies i).mass
          * ((s.bodies i).v 0 ^ 2 + (s.bodies i).v 1 ^ 2 + (s.bodies i).v 2 ^ 2)
        - ∑ i in Finset.range N, ∑ j in Finset.Ico (i + 1) N,
            (s.bodies i).mass * (s.bodies j).mass * s.inv_r (pair_index N i j)) := by
  rw [energy_eq N fuel s hN hf]
  simp only [vec3_norm2, sq]

/-- C11 witness: five bodies, every inverse distance 1. -/
theorem energy_kinetic_minus_potential_witness :
    energy 5 6 (unit_state : State ℝ) = Except.ok
      (∑ i in Finset.range 5, 0.5 * ((unit_state : State ℝ).bodies i).mass
          * (((unit_state : State ℝ).bodies i).v 0 ^ 2
            + ((unit_state : State ℝ).bodies i).v 1 ^ 2
            + ((unit_state : State ℝ).bodies i).v 2 ^ 2)
        - ∑ i in Finset.range 5, ∑ j in Finset.Ico (i + 1) 5,
            ((unit_state : State ℝ).bodies i).mass * ((unit_state : State ℝ).bodies j).mass
              * (unit_state : State ℝ).inv_r (pair_index 5 i j)) :=
  energy_kinetic_minus_potential 5 6 unit_state (by decide) (by decide)

/-- C12: zero-step scenario. For every initial state, a run of the driver with step
count 0 that returns has two identical energies (whatever the square root, the body count
and the fuel): the loop runs no iteration, so the second `energy()` call is handed the state
of the first. With `N ≤ 23` bodies at pairwise distinct positions and enough fuel the run
returns. -/
theorem main_zero_steps_same_energy (N fuel : Nat) (s : State ℝ) :
    (∀ s0 : State ℝ, steps N fuel 0 s0 = Except.ok s0)
      ∧ (∀ (sqrt : ℝ → ℝ) (e1 e2 : ℝ),
          main_run sqrt N fuel 0 s = Except.ok (e1, e2) → e1 = e2)
      ∧ (N ≤ 23 → N_PAIRS N < fuel → N < fuel →
          (∀ i j, i < j → j < N → (s.bodies i).x ≠ (s.bodies j).x) →
          ∃ e : ℝ, main_run Real.sqrt N fuel 0 s = Except.ok (e, e)) :=
  ⟨fun _ => rfl, fun sqrt e1 e2 h => main_run_zero_eq sqrt N fuel s e1 e2 h,
    fun hN hf hf1 hd => main_run_zero_total N fuel s hN hf hf1 hd⟩

/-- C12 witness: five bodies on a line. -/
theorem main_zero_steps_same_energy_witness :
    ∃ e : ℝ, main_run Real.sqrt 5 11 0 (line_state : State ℝ) = Except.ok (e, e) :=
  (main_zero_steps_same_energy 5 11 line_state).2.2 (by decide) (by decide) (by decide)
    (fun i j hij _ => line_state_distinct i j hij)

/-- C15 (as stated, refuted): for `z = inv_r[0] = 1` and `r2[0] = 2` the Halley
denominator is nonzero (it is 14) and the polishing step gives `7/8`, while the Halley
iterate for `f(z) = 1/z^2 - r2` is `5/7`. -/
theorem halley_step_differs_from_halley_iterate :
    (2 * (-2 / (halley_test_state : State ℝ).inv_r 0 ^ 3) ^ 2
        - (1 / (halley_test_state : State ℝ).inv_r 0 ^ 2 - (halley_test_state : State ℝ).r2 0)
          * (6 / (halley_test_state : State ℝ).inv_r 0 ^ 4) ≠ 0)
      ∧ (halley_step 0 (halley_test_state : State ℝ)).inv_r 0 = 7 / 8
      ∧ halley_iterate ((halley_test_state : State ℝ).inv_r 0)
          ((halley_test_state : State ℝ).r2 0) = 5 / 7
      ∧ (halley_step 0 (halley_test_state : State ℝ)).inv_r 0
          ≠ halley_iterate ((halley_test_state : State ℝ).inv_r 0)
              ((halley_test_state : State ℝ).r2 0) := by
  have h1 : (halley_step 0 (halley_test_state : State ℝ)).inv_r 0 = 7 / 8 := by
    rw [halley_step_value]
    simp only [halley_test_state]
    norm_num
  have h2 : halley_iterate ((halley_test_state : State ℝ).inv_r 0)
      ((halley_test_state : State ℝ).r2 0) = 5 / 7 := by
    simp only [halley_iterate, halley_test_state]
    norm_num
  refine ⟨?_, h1, h2, ?_⟩
  · simp only [halley_test_state]
    norm_num
  · rw [h1, h2]
    norm_num

/-- C15 (amended): for every `z = inv_r[p]` nonzero and every `r2[p]` for which the
Halley denominator `2 f'^2 - f f''` is nonzero, where `f(w) = 1/w^2 - r2` has the
derivatives `f' = -2/z^3` and `f'' = 6/z^4` at `z`: the Halley iterate is
`z * (3 + y) / (1 + 3 y)` with `y = r2 * z^2`, and the polishing step of `update_inv_r`,
`z * (15 + y * (3 y - 10)) / 8`, exceeds it by exactly `9 z (y - 1)^3 / (8 (1 + 3 y))`;
the two agree exactly when `y = 1`. -/
theorem halley_step_vs_halley_iterate (p : Nat) (s : State ℝ) (hz : s.inv_r p ≠ 0)
    (hD : 2 * (-2 / s.inv_r p ^ 3) ^ 2
      - (1 / s.inv_r p ^ 2 - s.r2 p) * (6 / s.inv_r p ^ 4) ≠ 0) :
    HasDerivAt (fun w : ℝ => 1 / w ^ 2 - s.r2 p) (-2 / s.inv_r p ^ 3) (s.inv_r p)
      ∧ HasDerivAt (fun w : ℝ => -2 / w ^ 3) (6 / s.inv_r p ^ 4) (s.inv_r p)
      ∧ halley_iterate (s.inv_r p) (s.r2 p)
          = s.inv_r p * (3 + s.r2 p * s.inv_r p ^ 2) / (1 + 3 * (s.r2 p * s.inv_r p ^ 2))
      ∧ (halley_step p s).inv_r p
          = s.inv_r p * (15 + s.r2 p * s.inv_r p ^ 2 * (3 * (s.r2 p * s.inv_r p ^ 2) - 10)) / 8
      ∧ (halley_step p s).inv_r p
          = halley_iterate (s.inv_r p) (s.r2 p)
            + 9 * s.inv_r p * (s.r2 p * s.inv_r p ^ 2 - 1) ^ 3
              / (8 * (1 + 3 * (s.r2 p * s.inv_r p ^ 2)))
      ∧ ((halley_step p s).inv_r p = halley_iterate (s.inv_r p) (s.r2 p)
          ↔ s.r2 p * s.inv_r p ^ 2 = 1) := by
  have h3 : 1 + 3 * (s.r2 p * s.inv_r p ^ 2) ≠ 0 := by
    intro h0
    apply hD
    rw [halley_denominator _ _ hz, h0]
    simp
  have hd1 : HasDerivAt (fun w : ℝ => 1 / w ^ 2 - s.r2 p) (-2 / s.inv_r p ^ 3) (s.inv_r p) := by
    have h := ((hasDerivAt_const (s.inv_r p) (1 : ℝ)).div (hasDerivAt_pow 2 (s.inv_r p))
      (pow_ne_zero 2 hz)).sub_const (s.r2 p)
    convert h using 1
    field_simp
    ring
  have hd2 : HasDerivAt (fun w : ℝ => -2 / w ^ 3) (6 / s.inv_r p ^ 4) (s.inv_r p) := by
    have h := (hasDerivAt_const (s.inv_r p) (-2 : ℝ)).div (hasDerivAt_pow 3 (s.inv_r p))
      (pow_ne_zero 3 hz)
    convert h using 1
    field_simp
    ring
  have hH := halley_iterate_eq (s.inv_r p) (s.r2 p) hz h3
  have hS := halley_step_value p s
  have hdiff : (halley_step p s).inv_r p
      = halley_iterate (s.inv_r p) (s.r2 p)
        + 9 * s.inv_r p * (s.r2 p * s.inv_r p ^ 2 - 1) ^ 3
          / (8 * (1 + 3 * (s.r2 p * s.inv_r p ^ 2))) := by
    rw [hS, hH]
    field_simp
    ring
  refine ⟨hd1, hd2, hH, hS, hdiff, ?_⟩
  constructor
  · intro heq
    rw [hdiff] at heq
    have h0 : 9 * s.inv_r p * (s.r2 p * s.inv_r p ^ 2 - 1) ^ 3
        / (8 * (1 + 3 * (s.r2 p * s.inv_r p ^ 2))) = 0 := by linarith
    have h8 : (8 * (1 + 3 * (s.r2 p * s.inv_r p ^ 2))) ≠ 0 := mul_ne_zero (by norm_num) h3
    rw [div_eq_zero_iff] at h0
    rcases h0 with h0 | h0
    · have h9 : (9 : ℝ) * s.inv_r p ≠ 0 := mul_ne_zero (by norm_num) hz
      have := (mul_eq_zero.mp h0).resolve_left h9
      have := pow_eq_zero_iff (n := 3) (by norm_num) |>.mp this
      linarith
    · exact absurd h0 h8
  · intro hy
    rw [hdiff, hy]
    simp

/-- C15 witness: the cache with `inv_r = 1`, `r2 = 2`. -/
theorem halley_step_vs_halley_iterate_witness :
    (halley_step 0 (halley_test_state : State ℝ)).inv_r 0
      = halley_iterate ((halley_test_state : State ℝ).inv_r 0)
          ((halley_test_state : State ℝ).r2 0)
        + 9 * (halley_test_state : State ℝ).inv_r 0
          * ((halley_test_state : State ℝ).r2 0 * (halley_test_state : State ℝ).inv_r 0 ^ 2 - 1) ^ 3
          / (8 * (1 + 3 * ((halley_test_state : State ℝ).r2 0
              * (halley_test_state : State ℝ).inv_r 0 ^ 2))) :=
  (halley_step_vs_halley_iterate 0 halley_test_state (by simp [halley_test_state])
    (by simp only [halley_test_state]; norm_num)).2.2.2.2.1

/-- C16: driver sequencing invariant. For every step count `n`, every initial state and
every square root (with `N ≤ 23` bodies and enough fuel), in every run of `main` that
returns the energies `e1`, `e2`: `e1` is the value of `energy` on the state `s0` returned
by the setup, `e2` its value on the state `sn` after the `n` iterations, iteration `k + 1`
is `step` on the state `sk` after `k` iterations and starts with an `advance` call on
`sk` that returns; and at each of these states the geometry caches are current:
`dr[p(i,j)] = x_i - x_j` and `r2[p(i,j)] = |x_i - x_j|^2` for the positions of that
state. The run returns (with the real square root) when the bodies start at pairwise
distinct positions and no state before an iteration has two bodies at one position.
`offset_momentum` returns and changes no position and neither `dr` nor `r2`. -/
theorem driver_geometry_current (N fuel n : Nat) (sqrt : ℝ → ℝ) (s : State ℝ) (hN : N ≤ 23)
    (hf : N_PAIRS N < fuel) (hf1 : N < fuel) :
    (∀ e1 e2 : ℝ, main_run sqrt N fuel n s = Except.ok (e1, e2) →
        ∃ s0 sn : State ℝ, setup sqrt N fuel s = Except.ok s0
          ∧ energy N fuel s0 = Except.ok e1 ∧ geometry_current N s0
          ∧ steps N fuel n s0 = Except.ok sn
          ∧ energy N fuel sn = Except.ok e2 ∧ geometry_current N sn
          ∧ ∀ k, k < n → ∃ sk a : State ℝ, steps N fuel k s0 = Except.ok sk
              ∧ steps N fuel (k + 1) s0 = step N fuel sk
              ∧ advance N fuel sk = Except.ok a ∧ geometry_current N sk)
      ∧ ((∀ i j, i < j → j < N → (s.bodies i).x ≠ (s.bodies j).x) →
          (∀ (k : Nat) (s0 sk : State ℝ), k < n → setup Real.sqrt N fuel s = Except.ok s0 →
            steps N fuel k s0 = Except.ok sk →
            ∀ i j, i < j → j < N → (sk.bodies i).x ≠ (sk.bodies j).x) →
          ∃ e1 e2 : ℝ, main_run Real.sqrt N fuel n s = Except.ok (e1, e2))
      ∧ (∀ t : State ℝ, ∃ t1 : State ℝ, offset_momentum N fuel t = Except.ok t1
          ∧ t1.dr = t.dr ∧ t1.r2 = t.r2 ∧ ∀ k, (t1.bodies k).x = (t.bodies k).x) := by
  refine ⟨?_, ?_, ?_⟩
  · intro e1 e2 h
    obtain ⟨s0, sn, h0, hE1, hn, hE2⟩ := main_run_calls sqrt N fuel n s e1 e2 h
    have hc0 := setup_current sqrt N fuel hN hf1 s s0 h0
    refine ⟨s0, sn, h0, hE1, hc0, hn, hE2, steps_current N fuel hN hf hf1 n s0 sn hc0 hn, ?_⟩
    intro k hk
    obtain ⟨sk, a, g1, g2, g3⟩ := steps_prefix N fuel n s0 sn hn k hk
    exact ⟨sk, a, g1, g2, g3, steps_current N fuel hN hf hf1 k s0 sk hc0 g1⟩
  · intro hd hcoll
    obtain ⟨s0, h0, hc0, -, -⟩ := setup_total N fuel s hN hf hf1 hd
    obtain ⟨sn, hn⟩ := steps_total N fuel hN hf hf1 s0 hc0 n
      (fun k sk hk hsk => hcoll k s0 sk hk h0 hsk)
    obtain ⟨v1, hv1⟩ : ∃ v : ℝ, energy N fuel s0 = Except.ok v :=
      ⟨_, energy_eq N fuel s0 hN hf1⟩
    obtain ⟨v2, hv2⟩ : ∃ v : ℝ, energy N fuel sn = Except.ok v :=
      ⟨_, energy_eq N fuel sn hN hf1⟩
    refine ⟨v1, v2, ?_⟩
    unfold main_run
    rw [h0]
    simp only [hv1, hn, hv2]
  · intro t
    obtain ⟨t1, h1, h2, h3, -, h5⟩ := offset_momentum_frame N fuel (by omega) hf1 t
    exact ⟨t1, h1, h2, h3, h5⟩

/-- C16 witness: five bodies on a line and one iteration: the run returns, and the
caches are current at both `energy()` calls and at the `advance` call. -/
theorem driver_geometry_current_witness :
    ∃ (e1 e2 : ℝ) (s0 s1 a : State ℝ),
      main_run Real.sqrt 5 11 1 (line_state : State ℝ) = Except.ok (e1, e2)
      ∧ setup Real.sqrt 5 11 (line_state : State ℝ) = Except.ok s0
      ∧ energy 5 11 s0 = Except.ok e1 ∧ geometry_current 5 s0
      ∧ advance 5 11 s0 = Except.ok a
      ∧ steps 5 11 1 s0 = Except.ok s1
      ∧ energy 5 11 s1 = Except.ok e2 ∧ geometry_current 5 s1 := by
  have h := driver_geometry_current 5 11 1 Real.sqrt (line_state : State ℝ) (by decide)
    (by decide) (by decide)
  have hd : ∀ i j, i < j → j < 5 →
      ((line_state : State ℝ).bodies i).x ≠ ((line_state : State ℝ).bodies j).x :=
    fun i j hij _ => line_state_distinct i j hij
  obtain ⟨e1, e2, hrun⟩ := h.2.1 hd (by
    intro k s0 sk hk hs0 hsk i j hij _
    have hk0 : k = 0 := by omega
    subst hk0
    simp only [steps] at hsk
    cases hsk
    rw [setup_positions Real.sqrt 5 11 (by decide) (by decide) line_state s0 hs0 i,
      setup_positions Real.sqrt 5 11 (by decide) (by decide) line_state s0 hs0 j]
    exact line_state_distinct i j hij)
  obtain ⟨s0, s1, g1, g2, g3, g4, g5, g6, g7⟩ := h.1 e1 e2 hrun
  obtain ⟨sk, a, k1, -, k3, -⟩ := g7 0 (by decide)
  simp only [steps] at k1
  cases k1
  exact ⟨e1, e2, s0, s1, a, hrun, g1, g2, g3, k3, g4, g5, g6⟩

/-- C17: index width limit. For every body count `2 ≤ N < 23` (and fuel for the
longest loop) the final values `N` of `i` and `j` and `N_PAIRS N` of `p` are at most 255; the
nested loop of `calc_distances`, `advance` and `energy` visits exactly the triples of
`pair_list N`, and for each of them `i`, `j` and `p` are incremented without wrapping
and `p` is below `N_PAIRS N`; the loops over `p` of `calc_inv_r` and `update_inv_r`
visit `0, ..., N_PAIRS N - 1`, the loop over `i` of `advance` visits `0, ..., N - 1` and
the polishing loop visits 0, each incremented without wrapping. -/
theorem counters_do_not_wrap (N fuel : Nat) (hN2 : 2 ≤ N) (hN : N < 23)
    (hf : N_PAIRS N < fuel) (hf1 : N < fuel) :
    N ≤ 255 ∧ N_PAIRS N ≤ 255
      ∧ pair_trace N fuel = Except.ok (pair_list N)
      ∧ (∀ i j p, (i, j, p) ∈ pair_list N →
          i < N ∧ j < N ∧ p < N_PAIRS N
          ∧ index_t (i + 1) = i + 1 ∧ index_t (j + 1) = j + 1 ∧ index_t (p + 1) = p + 1)
      ∧ index_trace (N_PAIRS N) fuel = Except.ok (List.range (N_PAIRS N))
      ∧ index_trace N fuel = Except.ok (List.range N)
      ∧ index_trace NR_ITS fuel = Except.ok (List.range NR_ITS)
      ∧ (∀ k, k < N_PAIRS N ∨ k < N ∨ k < NR_ITS → index_t (k + 1) = k + 1) := by
  have hP := N_PAIRS_le_of_le N (by omega)
  refine ⟨by omega, by omega, pair_trace_eq N fuel (by omega) hf1, ?_,
    index_trace_eq _ fuel (by omega) hf, index_trace_eq _ fuel (by omega) hf1,
    index_trace_eq _ fuel (by decide) (by unfold NR_ITS; omega), ?_⟩
  · intro i j p hmem
    obtain ⟨hij, hj, rfl⟩ := (mem_pair_list N i j p).mp hmem
    have hp := pair_index_lt N i j hij hj
    exact ⟨by omega, hj, hp, index_t_of_lt (by omega), index_t_of_lt (by omega),
      index_t_of_lt (by omega)⟩
  · intro k hk
    apply index_t_of_lt
    unfold NR_ITS at hk
    omega

/-- C17 witness: the five bodies of the source. -/
theorem counters_do_not_wrap_witness :
    N_PAIRS 5 ≤ 255 ∧ pair_trace 5 11 = Except.ok (pair_list 5)
      ∧ index_trace (N_PAIRS 5) 11 = Except.ok (List.range (N_PAIRS 5)) :=
  have h := counters_do_not_wrap 5 11 (by decide) (by decide) (by decide) (by decide)
  ⟨h.2.1, h.2.2.1, h.2.2.2.2.1⟩

/-- C18: exact error law of the refinement step. For every pair `p` (of a cache with
`N ≤ 23` bodies) with `r2[p] > 0`, every `q > 0` with `q^2 * r2[p] = 1` and every real
`delta`, if `inv_r[p] = (1 + delta) * q` then `update_inv_r` returns a state whose
`inv_r[p]` is exactly `q * (1 + delta^3 * (20 + 15 delta + 3 delta^2) / 8)`: the relative
error after the step is `delta^3 * (20 + 15 delta + 3 delta^2) / 8`, and for `delta = 0`
the entry is unchanged. -/
theorem update_inv_r_error_law (N fuel p : Nat) (s : State ℝ) (q delta : ℝ) (hN : N ≤ 23)
    (hf : N_PAIRS N < fuel) (hp : p < N_PAIRS N) (hr2 : 0 < s.r2 p) (hq : 0 < q)
    (hq2 : q ^ 2 * s.r2 p = 1) (hinv : s.inv_r p = (1 + delta) * q) :
    ∃ s1 : State ℝ, update_inv_r N fuel s = Except.ok s1
      ∧ s1.inv_r p = q * (1 + delta ^ 3 * (20 + 15 * delta + 3 * delta ^ 2) / 8)
      ∧ s1.inv_r p / q - 1 = delta ^ 3 * (20 + 15 * delta + 3 * delta ^ 2) / 8
      ∧ (delta = 0 → s1.inv_r p = s.inv_r p) := by
  obtain ⟨s1, h1, h2, -⟩ := update_inv_r_eq N fuel s hN hf
  have hq0 : q ≠ 0 := ne_of_gt hq
  have _ := hr2
  have hr : s.r2 p = 1 / q ^ 2 := by
    field_simp
    linarith
  have hval : s1.inv_r p = q * (1 + delta ^ 3 * (20 + 15 * delta + 3 * delta ^ 2) / 8) := by
    rw [h2 p, if_pos hp, hinv, hr]
    norm_num
    field_simp
    ring
  refine ⟨s1, h1, hval, ?_, ?_⟩
  · rw [hval]
    field_simp
    ring
  · intro hd
    rw [hval, hinv, hd]
    ring

/-- C18 witness: the unit cache, `q = 1`, `delta = 0`. -/
theorem update_inv_r_error_law_witness :
    ∃ s1 : State ℝ, update_inv_r 5 11 (unit_state : State ℝ) = Except.ok s1
      ∧ s1.inv_r 0 = 1 * (1 + (0 : ℝ) ^ 3 * (20 + 15 * 0 + 3 * 0 ^ 2) / 8) :=
  have h := update_inv_r_error_law 5 11 0 (unit_state : State ℝ) 1 0 (by decide) (by decide)
    (by decide) (by simp [unit_state]) (by norm_num) (by simp [unit_state])
    (by simp [unit_state])
  h.elim fun s1 hs => ⟨s1, hs.1, hs.2.1⟩

/-- C19: sign preservation of the refinement step. For every real `r2` and `inv_r` the
multiplier `0.125 * (15 + y * (3 y - 10))`, `y = r2 * inv_r^2`, is at least `5/6`;
`update_inv_r` (with `N ≤ 23` bodies and enough fuel) returns and keeps every positive
`inv_r[p]`, `p < N_PAIRS N`, positive; and if every `inv_r[p]` is positive in the state
`s2` returned by `calc_inv_r`, then it is positive in the state after `offset_momentum`
and any number `n` of driver iterations, whenever the run gets there. -/
theorem inv_r_stays_positive (N fuel : Nat) (hN : N ≤ 23) (hf : N_PAIRS N < fuel)
    (hf1 : N < fuel) :
    (∀ r2 inv_r : ℝ,
        5 / 6 ≤ 0.125 * (15 + r2 * inv_r * inv_r * (3 * (r2 * inv_r * inv_r) - 10)))
      ∧ (∀ s : State ℝ, ∃ s1 : State ℝ, update_inv_r N fuel s = Except.ok s1
          ∧ ∀ p, p < N_PAIRS N → 0 < s.inv_r p → 0 < s1.inv_r p)
      ∧ (∀ (sqrt : ℝ → ℝ) (s1 s2 s3 sn : State ℝ) (n : Nat),
          calc_inv_r sqrt N fuel s1 = Except.ok s2 →
          (∀ p, p < N_PAIRS N → 0 < s2.inv_r p) →
          offset_momentum N fuel s2 = Except.ok s3 →
          steps N fuel n s3 = Except.ok sn →
          ∀ p, p < N_PAIRS N → 0 < sn.inv_r p) := by
  refine ⟨fun r2 inv_r => halley_multiplier_ge _, ?_, ?_⟩
  · intro s
    obtain ⟨s1, h1, h2, -⟩ := update_inv_r_eq N fuel s hN hf
    refine ⟨s1, h1, fun p hp hpos => ?_⟩
    rw [h2 p, if_pos hp]
    exact mul_pos hpos (lt_of_lt_of_le (by norm_num) (halley_multiplier_ge _))
  · intro sqrt s1 s2 s3 sn n _ hpos h3 hn
    obtain ⟨t, k1, -, -, k4, -⟩ := offset_momentum_frame N fuel (by omega) hf1 s2
    rw [k1] at h3
    cases h3
    exact steps_inv_r_pos N fuel hN hf hf1 n s3 sn (fun p hp => by rw [k4]; exact hpos p hp) hn

/-- C19 witness: five bodies on a line; the setup and one iteration return and every
`inv_r` entry of a pair is positive afterwards. -/
theorem inv_r_stays_positive_witness :
    ∃ s0 s1 : State ℝ, setup Real.sqrt 5 11 (line_state : State ℝ) = Except.ok s0
      ∧ steps 5 11 1 s0 = Except.ok s1 ∧ ∀ p, p < N_PAIRS 5 → 0 < s1.inv_r p := by
  have hd : ∀ i j, i < j → j < 5 →
      ((line_state : State ℝ).bodies i).x ≠ ((line_state : State ℝ).bodies j).x :=
    fun i j hij _ => line_state_distinct i j hij
  obtain ⟨a, ha, ha2, ha3, -⟩ := calc_distances_current 5 11 (line_state : State ℝ)
    (by decide) (by decide)
  have hpos : ∀ p, p < N_PAIRS 5 → 0 < a.r2 p := by
    intro p hp
    obtain ⟨i, j, hij, hj, rfl⟩ := pair_index_surj 5 p hp
    exact (r2_of_current 5 a ha2 i j hij hj).1 (by rw [ha3]; exact hd i j hij hj)
  obtain ⟨b, hb, hb2, -, hb4, -⟩ := calc_inv_r_eq 5 11 a (by decide) (by decide) hpos
  obtain ⟨c, hc, -, hc3, -, -⟩ := offset_momentum_frame 5 11 (by decide) (by decide) b
  have hbpos : ∀ p, p < N_PAIRS 5 → 0 < b.inv_r p := by
    intro p hp
    rw [hb2 p, if_pos hp]
    have := Real.sqrt_pos.mpr (hpos p hp)
    positivity
  obtain ⟨s1, h1⟩ := step_total 5 11 c (by decide) (by decide) (by decide)
    (fun p hp => by rw [hc3, hb4]; exact ne_of_gt (hpos p hp))
  have hs1 : steps 5 11 1 c = Except.ok s1 := by
    simp only [steps, h1]
  have hsetup : setup Real.sqrt 5 11 (line_state : State ℝ) = Except.ok c := by
    unfold setup
    rw [ha]
    simp only []
    rw [hb]
    exact hc
  exact ⟨c, s1, hsetup, hs1,
    (inv_r_stays_positive 5 11 (by decide) (by decide) (by decide)).2.2 Real.sqrt a b c s1 1
      hb hbpos hc hs1⟩

end NBody
